import Mathlib

/-!
Verification of the bvzlib repository (modules/bvzlib/framespec.py and
modules/bvzlib/filesystem.py) against its natural-language specification.

The Python code is shallowly embedded:
  * Python strings are Lean `String`s (operated on through `String.data`,
    a `List Char`);
  * the concrete regular expressions appearing in the source are embedded
    as executable character-level matchers that implement exactly the
    semantics of those fixed patterns (Python `re` is an external library;
    each matcher's doc comment states which pattern of the source it
    implements and how greediness/backtracking was resolved);
  * regex pattern *strings* built by the code out of `re.escape`d literal
    text and fragment insertions are embedded structurally as lists of
    `RAtom` atoms (an escaped literal character becomes `RAtom.lit c`,
    the fragments `\d`, `\d+`, `[1-9]`, `0*`, `.*` become the remaining
    atoms); concatenation of pattern strings becomes list append;
  * the filesystem touched by the dedup-store functions is passed around
    as an explicit `FS` state (store-directory listing plus symlinks), and
    `hashlib.md5` (external) is idealized as an injective function of the
    file content, so checksum equality is content equality;
  * Python functions that can raise on the modelled paths return `Option`.
-/

set_option maxRecDepth 10000

/-! ## Basic character and numeral utilities -/

/-- Python `str.isdigit` for ASCII digits, as used by `\d` in the regexes. -/
def isDig (c : Char) : Bool :=
  '0' ≤ c ∧ c ≤ '9'

/-- Value of an ASCII digit character. -/
def digVal (c : Char) : Nat :=
  c.toNat - 48

/-- Fueled helper for `natDigits`; the fuel only needs to exceed the
number of decimal digits, and `natDigits` passes `n + 1`. -/
def natDigitsF : Nat → Nat → List Char
  | 0, _ => []
  | f + 1, n =>
    if n < 10 then [Char.ofNat (48 + n)]
    else natDigitsF f (n / 10) ++ [Char.ofNat (48 + n % 10)]

/-- Decimal digits of a natural number, most significant first (the digits
of Python `str(n)` for a non-negative int). -/
def natDigits (n : Nat) : List Char :=
  natDigitsF (n + 1) n

/-- Python `str(i)` for an int, as a character list. -/
def intDigits (i : Int) : List Char :=
  if i < 0 then '-' :: natDigits i.natAbs else natDigits i.toNat

/-- Python `int(s)` on a non-empty string of decimal digits (no sign). -/
def parseNat (cs : List Char) : Nat :=
  cs.foldl (fun a c => a * 10 + digVal c) 0

/-- Python `int(s)` on an optionally `-`-signed digit string. -/
def parseInt (cs : List Char) : Int :=
  match cs with
  | c :: rest => if c = '-' then - (parseNat rest : Int) else (parseNat (c :: rest) : Int)
  | [] => (parseNat [] : Int)

/-- Python `s.rjust(width, "0")`: left-pad a character list with zeros. -/
def rjust0 (width : Nat) (cs : List Char) : List Char :=
  List.replicate (width - cs.length) '0' ++ cs

/-- Leading run of decimal digits of a character list, and the remainder
(the maximal munch of a leading `\d+`). -/
def takeDigitsL : List Char → List Char × List Char
  | [] => ([], [])
  | c :: cs =>
    if isDig c then
      let (ds, r) := takeDigitsL cs
      (c :: ds, r)
    else ([], c :: cs)

/-- Python `s.split(",")` at the character-list level; the result always has
one more element than the number of commas (so `[] ↦ [[]]`, matching
`"".split(",") == [""]`). -/
def splitCommaL : List Char → List (List Char)
  | [] => [[]]
  | c :: cs =>
    if c = ',' then [] :: splitCommaL cs
    else
      match splitCommaL cs with
      | [] => [[c]]
      | h :: t => (c :: h) :: t

/-- Generic insertion sort by a boolean `le`; used to model Python
`list.sort()` (stable, and on the lists we sort equal keys are identical,
so stability questions do not arise). -/
def insSort (le : α → α → Bool) : List α → List α
  | [] => []
  | x :: xs => insSortIns le x (insSort le xs)
where
  insSortIns (le : α → α → Bool) (x : α) : List α → List α
  | [] => [x]
  | y :: ys => if le x y then x :: y :: ys else y :: insSortIns le x ys

/-- Lexicographic code-point comparison of strings, Python `str.__le__`. -/
def strLe (a b : String) : Bool :=
  lexLe a.data b.data
where
  lexLe : List Char → List Char → Bool
  | [], _ => true
  | _ :: _, [] => false
  | x :: xs, y :: ys => if x = y then lexLe xs ys else decide (x < y)

/-- Sorted duplicate-free insertion into an ascending list of ints; folding
this models Python `sorted(set(...))`. -/
def insertUniq (x : Int) : List Int → List Int
  | [] => [x]
  | y :: ys =>
    if x < y then x :: y :: ys
    else if x = y then y :: ys
    else y :: insertUniq x ys

/-- Python `sorted(set(xs))`: ascending list of the distinct elements. -/
def dedupSort (xs : List Int) : List Int :=
  xs.foldl (fun acc x => insertUniq x acc) []

/-! ## Embedded regex pattern atoms

A pattern string produced by the Python code is a concatenation of
`re.escape`d literal text and the fixed fragments `\d{n}`, `\d+`,
`[1-9]\d{3}` (strict UDIM), `[1-9]\d{3}.*` (lenient UDIM) and `0*`.
We represent such a pattern as a `List RAtom` (with `\d{n}` represented
as `n` copies of `RAtom.digit`). -/

inductive RAtom where
  /-- An escaped literal character (matches exactly itself). -/
  | lit (c : Char)
  /-- The class `\d`. -/
  | digit
  /-- The class `[1-9]`. -/
  | nonzero
  /-- The quantified class `\d+`. -/
  | digitPlus
  /-- The quantified literal `0*`. -/
  | zeroStar
  /-- The quantified wildcard `.*`. -/
  | dotStar
deriving DecidableEq, Repr

/-- Embedding of `re.escape(s)`: every character of a literal segment
becomes a literal atom (escaping affects only the textual spelling of the
pattern, not which characters it matches). -/
def escapeLits (s : String) : List RAtom :=
  s.data.map RAtom.lit

/-- Fueled backtracking matcher: does the atom list match some prefix of
the character list?  This is the truth value of Python `re.match(p, s)`
for a pattern made of the atoms above (`re.match` anchors at the start
only; greedy versus lazy quantifiers do not change whether a match
exists, which is all the source ever uses).  Fuel decreases on every
recursive call; `matchAtoms` below supplies provably sufficient fuel. -/
def matchAtomsF : Nat → List RAtom → List Char → Bool
  | 0, _, _ => false
  | _ + 1, [], _ => true
  | _ + 1, RAtom.lit _ :: _, [] => false
  | _ + 1, RAtom.digit :: _, [] => false
  | _ + 1, RAtom.nonzero :: _, [] => false
  | _ + 1, RAtom.digitPlus :: _, [] => false
  | f + 1, RAtom.zeroStar :: ps, [] => matchAtomsF f ps []
  | f + 1, RAtom.dotStar :: ps, [] => matchAtomsF f ps []
  | f + 1, RAtom.lit c :: ps, d :: ds => c = d && matchAtomsF f ps ds
  | f + 1, RAtom.digit :: ps, d :: ds => isDig d && matchAtomsF f ps ds
  | f + 1, RAtom.nonzero :: ps, d :: ds =>
    ('1' ≤ d ∧ d ≤ '9') && matchAtomsF f ps ds
  | f + 1, RAtom.digitPlus :: ps, d :: ds =>
    isDig d && (matchAtomsF f ps ds || matchAtomsF f (RAtom.digitPlus :: ps) ds)
  | f + 1, RAtom.zeroStar :: ps, d :: ds =>
    matchAtomsF f ps (d :: ds) || (d = '0' && matchAtomsF f (RAtom.zeroStar :: ps) ds)
  | f + 1, RAtom.dotStar :: ps, d :: ds =>
    matchAtomsF f ps (d :: ds) || matchAtomsF f (RAtom.dotStar :: ps) ds

/-- Truth value of `re.match(pattern, s)` for an embedded pattern. -/
def matchAtoms (ps : List RAtom) (cs : List Char) : Bool :=
  matchAtomsF (2 * ps.length + 2 * cs.length + 1) ps cs

/-! ## The framespec regex of `find_frame_spec`

`framespec.find_frame_spec` (framespec.py lines 230-245) uses the pattern

  `(?:(?<=\.)|(?<=^))(?:(?:(?<!\.),)?\d+(?:-\d+(?:[x:]-?\d+)?)?)+(?:@+|#+)?(?=\.|$)`

This pattern is deterministic: after each consumed character exactly one
continuation can possibly lead to a match (items start with a digit or a
comma, the marker run starts with `@`/`#`, and the final lookahead needs
`.` or end of string, and these start sets are disjoint; the quantifiers
`\d+`, `@+`, `#+` are followed only by non-digit/non-marker atoms, so
giving back characters can never help).  Hence a backtracking engine
succeeds at a position iff the greedy single pass below succeeds, and it
produces the same match end.  We implement the body as a character DFA. -/

inductive FState where
  /-- Inside the `\d+` of an item (at least one digit read). -/
  | num1
  /-- Just after the `-` of `-\d+` (end-of-range digits must follow). -/
  | dash
  /-- Inside the `\d+` of the range end. -/
  | num2
  /-- Just after the `[x:]` step marker. -/
  | step0
  /-- Just after `[x:]-` (step digits must follow). -/
  | step1
  /-- Inside the `-?\d+` digits of the step. -/
  | stepD
  /-- Just after a `,` separating items (digits must follow). -/
  | comma2
  /-- Inside the `@+` padding-marker run. -/
  | atRun
  /-- Inside the `#+` padding-marker run. -/
  | hashRun
deriving DecidableEq, Repr

/-- States in which the body may stop so that only the lookahead
`(?=\.|$)` remains. -/
def FState.accepting : FState → Bool
  | .num1 | .num2 | .stepD | .atRun | .hashRun => true
  | _ => false

/-- Run the framespec DFA from state `st`; returns the number of further
characters consumed up to the match end (the lookahead consumes
nothing), or `none` if no match completes from here. -/
def fsRun : FState → List Char → Option Nat
  | st, [] => if st.accepting then some 0 else none
  | st, c :: cs =>
    if st.accepting ∧ c = '.' then some 0
    else
      match st with
      | .num1 =>
        if isDig c then (fsRun .num1 cs).map (· + 1)
        else if c = '-' then (fsRun .dash cs).map (· + 1)
        else if c = ',' then (fsRun .comma2 cs).map (· + 1)
        else if c = '@' then (fsRun .atRun cs).map (· + 1)
        else if c = '#' then (fsRun .hashRun cs).map (· + 1)
        else none
      | .dash =>
        if isDig c then (fsRun .num2 cs).map (· + 1) else none
      | .num2 =>
        if isDig c then (fsRun .num2 cs).map (· + 1)
        else if c = 'x' ∨ c = ':' then (fsRun .step0 cs).map (· + 1)
        else if c = ',' then (fsRun .comma2 cs).map (· + 1)
        else if c = '@' then (fsRun .atRun cs).map (· + 1)
        else if c = '#' then (fsRun .hashRun cs).map (· + 1)
        else none
      | .step0 =>
        if c = '-' then (fsRun .step1 cs).map (· + 1)
        else if isDig c then (fsRun .stepD cs).map (· + 1)
        else none
      | .step1 =>
        if isDig c then (fsRun .stepD cs).map (· + 1) else none
      | .stepD =>
        if isDig c then (fsRun .stepD cs).map (· + 1)
        else if c = ',' then (fsRun .comma2 cs).map (· + 1)
        else if c = '@' then (fsRun .atRun cs).map (· + 1)
        else if c = '#' then (fsRun .hashRun cs).map (· + 1)
        else none
      | .comma2 =>
        if isDig c then (fsRun .num1 cs).map (· + 1) else none
      | .atRun =>
        if c = '@' then (fsRun .atRun cs).map (· + 1) else none
      | .hashRun =>
        if c = '#' then (fsRun .hashRun cs).map (· + 1) else none

/-- Attempt a framespec match starting at the current character.  The
pattern's leading alternation of lookbehinds was already checked by the
caller; `atStart` tells whether the current position is position `0`,
which is the only place the leading `(?<!\.),` of the first item can
match (elsewhere the previous character is `.`, which that negative
lookbehind rejects).  Returns the total number of characters of the
match. -/
def fsTryStart (atStart : Bool) (c : Char) (cs : List Char) : Option Nat :=
  if isDig c then (fsRun .num1 cs).map (· + 1)
  else if c = ',' ∧ atStart then (fsRun .comma2 cs).map (· + 1)
  else none

/-- Scanner implementing `re.finditer` for the framespec pattern: try each
position left to right (subject to the lookbehind `(?:(?<=\.)|(?<=^))`),
and after a match of length `n` resume at its end (all matches are
non-empty, so Python's empty-match advance never triggers).  `prev` is
the character before the current position (`none` at position 0), `skip`
the number of positions still covered by the previous match. -/
def fsScan : List Char → Nat → Option Char → Nat → List (Nat × Nat)
  | [], _, _, _ => []
  | c :: cs, pos, _, Nat.succ k => fsScan cs (pos + 1) (some c) k
  | c :: cs, pos, prev, 0 =>
    if prev = none ∨ prev = some '.' then
      match fsTryStart (prev = none) c cs with
      | some n => (pos, pos + n) :: fsScan cs (pos + 1) (some c) (n - 1)
      | none => fsScan cs (pos + 1) (some c) 0
    else fsScan cs (pos + 1) (some c) 0

/-- All matches `(start, end)` of the framespec pattern in `s`, in
left-to-right order, as produced by `re.finditer` in the source. -/
def pyFinditerFspec (s : String) : List (Nat × Nat) :=
  fsScan s.data 0 none 0

/-! ## `find_frame_spec` (framespec.py lines 218-270) -/

/-- Python `s[:n]` on our strings. -/
def strTake (s : String) (n : Nat) : String :=
  ⟨s.data.take n⟩

/-- Python `s[n:]` on our strings. -/
def strDrop (s : String) (n : Nat) : String :=
  ⟨s.data.drop n⟩

/-- Python `s[a:b]` on our strings. -/
def strSlice (s : String) (a b : Nat) : String :=
  ⟨(s.data.take b).drop a⟩

/-- The running `match_start` update of `find_frame_spec`: the code does
`if match_start: match_start = max(match_start, m.start()) else:
match_start = m.start()`, so a stored value of `0` (falsy) is simply
replaced rather than maxed — embedded literally. -/
def updFalsyMax (acc : Option Nat) (v : Nat) : Option Nat :=
  match acc with
  | none => some v
  | some a => if a ≠ 0 then some (max a v) else some v

/-- Embedding of `framespec.find_frame_spec`: fold the match list through
the falsy-max updates for start and end, then slice the string; if no
match was found return the whole string as the first component. -/
def find_frame_spec (s : String) : String × String × String :=
  let ms := pyFinditerFspec s
  let mStart := ms.foldl (fun acc m => updFalsyMax acc m.1) none
  let mEnd := ms.foldl (fun acc m => updFalsyMax acc m.2) none
  match mStart, mEnd with
  | some a, some b => (strTake s a, strSlice s a b, strDrop s b)
  | _, _ => (s, "", "")

/-! ## `expand_frame_spec` (framespec.py lines 274-320)

The function splits on commas and runs `re.finditer` with the pattern
`(\d+)(?:(?:-(\d+))(?:[x:](-?\d+))?)?` over each piece.  This pattern is
likewise deterministic (maximal-munch digit runs; an optional group that
starts to match either completes or the whole group is skipped, and a
skipped group's first character can never be consumed by what follows,
because nothing follows). -/

/-- One attempted match of `(\d+)(?:(?:-(\d+))(?:[x:](-?\d+))?)?` at the
current position: returns the three groups (start digits, optional end
digits, optional step characters including an optional sign) and the
remaining characters after the match; `none` when the position does not
start with a digit. -/
def matchFrameItem (cs : List Char) :
    Option ((List Char × Option (List Char) × Option (List Char)) × List Char) :=
  let ds := (takeDigitsL cs).1
  let r1 := (takeDigitsL cs).2
  if ds = [] then none
  else
    match r1 with
    | c1 :: r2 =>
      if c1 = '-' then
        let es := (takeDigitsL r2).1
        let r3 := (takeDigitsL r2).2
        if es = [] then some ((ds, none, none), r1)
        else
          match r3 with
          | c :: r4 =>
            if c = 'x' ∨ c = ':' then
              match r4 with
              | c2 :: r5 =>
                if c2 = '-' then
                  let ss := (takeDigitsL r5).1
                  if ss = [] then some ((ds, some es, none), r3)
                  else some ((ds, some es, some ('-' :: ss)), (takeDigitsL r5).2)
                else
                  let ss := (takeDigitsL r4).1
                  if ss = [] then some ((ds, some es, none), r3)
                  else some ((ds, some es, some ss), (takeDigitsL r4).2)
              | [] => some ((ds, some es, none), r3)
            else some ((ds, some es, none), r3)
          | [] => some ((ds, some es, none), [])
      else some ((ds, none, none), r1)
    | [] => some ((ds, none, none), r1)

/-- Scanner implementing `re.finditer` for the frame-item pattern over one
comma-separated piece: try every position left to right, resuming after
the end of each (always non-empty) match.  `skip` counts positions still
covered by the previous match. -/
def itemScan : List Char → Nat → List (List Char × Option (List Char) × Option (List Char))
  | [], _ => []
  | _ :: cs, Nat.succ k => itemScan cs k
  | c :: cs, 0 =>
    match matchFrameItem (c :: cs) with
    | some (groups, rest) =>
      groups :: itemScan cs ((c :: cs).length - rest.length - 1)
    | none => itemScan cs 0

/-- Python `range(start, stop, step)` as a list (`step ≠ 0`; the embedding
returns `[]` for `step = 0`, a case `expand_frame_spec` below rules out
explicitly before ever building a range, mirroring the `ValueError`
Python would raise there). -/
def pyRange (start stop step : Int) : List Int :=
  let count : Nat :=
    if 0 < step then
      if stop ≤ start then 0 else ((stop - start - 1).toNat / step.toNat) + 1
    else if step < 0 then
      if start ≤ stop then 0 else ((start - stop - 1).toNat / (-step).toNat) + 1
    else 0
  (List.range count).map (fun (k : Nat) => start + (k : Int) * step)

/-- Convert one matched group triple to the frames it contributes, or
`none` when the step parses to `0` (where Python raises `ValueError` from
`range`): start defaults missing end to itself and missing step to `1`,
the offset is `+1` for positive and `-1` for non-positive step. -/
def itemFrames (g : List Char × Option (List Char) × Option (List Char)) :
    Option (List Int) :=
  let start : Int := (parseNat g.1 : Int)
  let stop : Int := match g.2.1 with
    | none => start
    | some es => (parseNat es : Int)
  let step : Int := match g.2.2 with
    | none => 1
    | some ss => parseInt ss
  if step = 0 then none
  else
    let offset : Int := if 0 < step then 1 else -1
    some (pyRange start (stop + offset) step)

/-- The accumulation loop of `expand_frame_spec`: extend the collected
frames with each group's range in order, aborting (the `ValueError`) on a
zero step. -/
def collectFrames :
    List (List Char × Option (List Char) × Option (List Char)) → List Int →
      Option (List Int)
  | [], acc => some acc
  | g :: gs, acc =>
    match itemFrames g with
    | none => none
    | some fs => collectFrames gs (acc ++ fs)

/-- Embedding of `framespec.expand_frame_spec`: split the spec on commas,
run the frame-item finditer on each piece, accumulate every resulting
range into a set, and return the sorted set (`sorted(output)`); `none`
models the `ValueError` raised on an explicit step of `0`. -/
def expand_frame_spec (framespec : String) : Option (List Int) :=
  match collectFrames
      ((splitCommaL framespec.data).flatMap (fun sub => itemScan sub 0)) [] with
  | none => none
  | some frames => some (dedupSort frames)

/-! ## `calc_padding` (framespec.py lines 324-359) -/

/-- Characters of `s` strictly after the first occurrence of `mark`
(Python `s.split(mark, 1)[1]` for a single-character separator that is
known to occur). -/
def afterFirst (mark : Char) : List Char → List Char
  | [] => []
  | c :: cs => if c = mark then cs else afterFirst mark cs

/-- Embedding of `framespec.calc_padding`.  The `padding` argument is
`none` for Python `None`; `framespec` is `""` for Python `None` (both are
falsy, and the function only tests truthiness).  Mirrors the source's
early-return order: `None ↦ 1` first, then `0 ↦ digits of the largest
frame`, then the `#`/`@` split, and finally the literal padding. -/
def calc_padding (frames : List Int) (framespec : String) (padding : Option Nat) : Nat :=
  match padding with
  | none => 1
  | some p =>
    if p = 0 then
      match frames.max? with
      | some m => (intDigits m).length
      | none => 1
    else if framespec ≠ "" then
      if framespec.data.contains '#' then (afterFirst '#' framespec.data).length + 1
      else if framespec.data.contains '@' then (afterFirst '@' framespec.data).length + 1
      else p
    else p

/-! ## Substring search and Python path helpers -/

/-- Index of the first occurrence of `needle` as a contiguous sublist of
`haystack`, or `none`; this is the position at which Python
`haystack.split(needle, 1)` splits and at which the lazy pattern
`.*?(needle)` captures. -/
def findSub (needle : List Char) : List Char → Option Nat
  | [] => if needle = [] then some 0 else none
  | c :: cs =>
    if needle.isPrefixOf (c :: cs) then some 0
    else (findSub needle cs).map (· + 1)

/-- Python `s.split(sep, 1)` when `sep` occurs in `s`: the text before the
first occurrence and the text after it; `none` when `sep` does not occur. -/
def strSplitOnce (s sep : String) : Option (String × String) :=
  (findSub sep.data s.data).map (fun i =>
    (⟨s.data.take i⟩, ⟨s.data.drop (i + sep.data.length)⟩))

/-- Python `os.path.split`: split at the last `/`; the head keeps a run of
slashes only when it consists of nothing else (POSIX semantics). -/
def pySplit (s : String) : String × String :=
  match lastSlashIdx s.data with
  | none => ("", s)
  | some i =>
    let head := s.data.take (i + 1)
    let tail := s.data.drop (i + 1)
    (⟨if head.all (· = '/') then head
      else (head.reverse.dropWhile (· = '/')).reverse⟩, ⟨tail⟩)
where
  lastSlashIdx (cs : List Char) : Option Nat :=
    match cs with
    | [] => none
    | c :: rest =>
      match lastSlashIdx rest with
      | some i => some (i + 1)
      | none => if c = '/' then some 0 else none

/-- Python `os.path.join(a, b)` for a non-absolute `b` (POSIX): drop into
`b` when it is absolute, otherwise glue with a `/` unless `a` is empty or
already ends in `/`. -/
def pyJoin (a b : String) : String :=
  if b.data.head? = some '/' then b
  else if a = "" ∨ a.data.getLast? = some '/' then a ++ b
  else a ++ "/" ++ b

/-! ## `seq_id_to_regex` (framespec.py lines 143-214)

The source first runs `re.search(r"[\._]%\d+d", string)`; if that test
succeeds it takes the groups of `re.match(r".*?()(%\d+d).*", string)`
(first `%\d+d` occurrence anywhere, with an intentionally empty delimiter
group), otherwise the groups of `re.match(r".*?([\._])(#+).*", string)`
(first `.`- or `_`-preceded hash run, with a maximal run).  It then
splits the string at the first occurrence of `delim + identifier`. -/

/-- Match of `%\d+d` exactly at the head of `cs`: the digit characters
between `%` and `d`, or `none` (greedy digits; the terminating `d` is not
a digit, so the munch is exact). -/
def printfTokenAt (cs : List Char) : Option (List Char) :=
  match cs with
  | c :: rest =>
    if c = '%' then
      if (takeDigitsL rest).1 = [] then none
      else
        match (takeDigitsL rest).2 with
        | d :: _ => if d = 'd' then some (takeDigitsL rest).1 else none
        | [] => none
    else none
  | [] => none

/-- Truth of `re.search(r"[\._]%\d+d", string)`: some position holds `.`
or `_` immediately followed by a printf token. -/
def hasPrecededPrintf : List Char → Bool
  | [] => false
  | c :: cs => ((c = '.' ∨ c = '_') && (printfTokenAt cs).isSome) || hasPrecededPrintf cs

/-- First match of `%\d+d` anywhere (the lazy `.*?` of the source pattern
makes the engine take the earliest position): its digit group. -/
def firstPrintfTok : List Char → Option (List Char)
  | [] => none
  | c :: cs =>
    match printfTokenAt (c :: cs) with
    | some ds => some ds
    | none => firstPrintfTok cs

/-- Match of `[\._](#+)` exactly at the head: the delimiter and the
(maximal) count of hash characters. -/
def hashTokenAt (cs : List Char) : Option (Char × Nat) :=
  match cs with
  | c :: rest =>
    if c = '.' ∨ c = '_' then
      let run := rest.takeWhile (· = '#')
      if run = [] then none else some (c, run.length)
    else none
  | [] => none

/-- First match of `[\._](#+)` anywhere: delimiter and run length. -/
def firstHashTok : List Char → Option (Char × Nat)
  | [] => none
  | c :: cs =>
    match hashTokenAt (c :: cs) with
    | some t => some t
    | none => firstHashTok cs

/-- The printf identifier string `%` + digits + `d` rebuilt from its digit
group (what the source's group 2 captures). -/
def printfIdent (ds : List Char) : String :=
  ⟨'%' :: ds ++ ['d']⟩

/-- Embedding of `framespec.seq_id_to_regex`.  Returns the text before
the identifier, the replacement regex fragment as atoms, and the text
after it; `(string, [], "")` when no sequence identifier is recognized.
For a printf identifier the fragment is `\d{N}` with `N = int(digits)`;
for a hash identifier it is the escaped delimiter followed by `\d{run}`
when `match_hash_length` else `\d+`. -/
def seq_id_to_regex (s : String) (match_hash_length : Bool) :
    String × List RAtom × String :=
  if hasPrecededPrintf s.data then
    match firstPrintfTok s.data with
    | some ds =>
      match strSplitOnce s (printfIdent ds) with
      | some (pre, suf) => (pre, List.replicate (parseNat ds) RAtom.digit, suf)
      | none => (s, [], "")
    | none => (s, [], "")
  else
    match firstHashTok s.data with
    | some (delim, run) =>
      match strSplitOnce s ⟨delim :: List.replicate run '#'⟩ with
      | some (pre, suf) =>
        (pre,
         RAtom.lit delim ::
           (if match_hash_length then List.replicate run RAtom.digit else [RAtom.digitPlus]),
         suf)
      | none => (s, [], "")
    | none => (s, [], "")

/-! ## `udim_id_to_regex` (framespec.py lines 79-139) -/

/-- Embedding of `framespec.udim_id_to_regex`: the `re.match` on
`.*?(<esc ident>).*` succeeds iff the identifier occurs as a substring,
and the string is then split at its first occurrence
(`string.split(identifier, 1)`).  The fragment is `[1-9]\d{3}` in strict
mode and `[1-9]\d{3}.*` otherwise.  `udim_identifier = none` models the
Python default `None ↦ "<UDIM>"`. -/
def udim_id_to_regex (s : String) (udim_identifier : Option String)
    (strict_udim_format : Bool) : String × List RAtom × String :=
  let ident := udim_identifier.getD "<UDIM>"
  match strSplitOnce s ident with
  | some (pre, suf) =>
    (pre,
     RAtom.nonzero :: RAtom.digit :: RAtom.digit :: RAtom.digit ::
       (if strict_udim_format then [] else [RAtom.dotStar]),
     suf)
  | none => (s, [], "")

/-! ## `seq_and_udim_ids_to_regex` (framespec.py lines 6-75) -/

/-- Embedding of `framespec.seq_and_udim_ids_to_regex`: split off the
directory, run the UDIM split on the file name, run the sequence split on
both outer pieces, and assemble escaped literal text around the inserted
fragments in source order. -/
def seq_and_udim_ids_to_regex (path : String) (match_hash_length : Bool)
    (udim_identifier : Option String) (strict_udim_format : Bool) : List RAtom :=
  let (parent_d, file_n) := pySplit path
  let u := udim_id_to_regex file_n udim_identifier strict_udim_format
  let p := seq_id_to_regex u.1 match_hash_length
  let sfx := seq_id_to_regex u.2.2 match_hash_length
  escapeLits (pyJoin parent_d p.1) ++ p.2.1 ++ escapeLits p.2.2 ++ u.2.1 ++
    escapeLits sfx.1 ++ sfx.2.1 ++ escapeLits sfx.2.2

/-! ## `expand_files` (framespec.py lines 432-550)

`expand_files` consults the environment through `os.path.abspath`,
`os.path.split`, the directory-existence asserts and `os.listdir`; the
embedding takes the resulting parent directory, file-name pattern and
directory listing as arguments and performs the remaining, purely
computational work of the source. -/

/-- The per-frame pattern of the matching loop: `"0*" + str(frame)` when
the `padding` argument is falsy (Python `None` or `0`), otherwise
`str(frame).rjust(actual_padding, "0")` as literal characters. -/
def framePat (padding : Option Nat) (actual_padding : Nat) (frame : Int) : List RAtom :=
  if padding = none ∨ padding = some 0 then
    RAtom.zeroStar :: (intDigits frame).map RAtom.lit
  else ((rjust0 actual_padding (intDigits frame)).map RAtom.lit)

/-- Embedding of `framespec.expand_files` from the point after the
environment interactions: `parent_d` and `file_pattern_n` are the two
halves of `os.path.split(os.path.abspath(user_pattern))` and `files_n`
is `os.listdir(parent_d)`.  Returns `(output, missing)`; `none` models
the `ValueError` that `expand_frame_spec` can raise.  Mirrors the
source: frames are expanded only when both the found framespec and the
found text after it are non-empty; each frame appends every start-anchored
`re.match`-ing directory entry to the output and, if none matched, the
frame to the missing list; with no frames the output is the single
unmatched pattern path; the missing list is sorted numerically and
rendered zero-padded, the output sorted lexically. -/
def expand_files (parent_d file_pattern_n : String) (files_n : List String)
    (padding : Option Nat) (udim_identifier : Option String)
    (strict_udim_format : Bool) (match_hash_length : Bool) :
    Option (List String × List String) := do
  let fsp := find_frame_spec file_pattern_n
  let frames ←
    if fsp.2.1 = "" ∨ fsp.2.2 = "" then pure ([] : List Int)
    else expand_frame_spec fsp.2.1
  let actual_padding := calc_padding frames fsp.2.1 padding
  let prePat := seq_and_udim_ids_to_regex fsp.1 match_hash_length
    udim_identifier strict_udim_format
  let sufPat := seq_and_udim_ids_to_regex fsp.2.2 match_hash_length
    udim_identifier strict_udim_format
  let output :=
    if frames ≠ [] then
      frames.flatMap (fun frame =>
        (files_n.filter (fun file_n =>
          matchAtoms (prePat ++ framePat padding actual_padding frame ++ sufPat)
            file_n.data)).map (pyJoin parent_d))
    else [pyJoin parent_d file_pattern_n]
  let missing :=
    if frames ≠ [] then
      frames.filter (fun frame =>
        files_n.all (fun file_n =>
          ! matchAtoms (prePat ++ framePat padding actual_padding frame ++ sufPat)
            file_n.data))
    else []
  let missingR := (insSort (fun a b => decide (a ≤ b)) missing).map
    (fun m => (⟨rjust0 actual_padding (intDigits m)⟩ : String))
  pure (insSort strLe output, missingR)

/-! ## Filesystem model for the dedup store (filesystem.py)

`copy_file_deduplicated` and its helpers touch the filesystem through
`os.listdir`, `os.path.getsize`, `md5_for_file`, `shutil.copy`,
`os.chmod`, `os.unlink` and `os.symlink`.  The embedding passes the
touched state explicitly: the store directory `data_d` is a list of
`StoreFile`s (name and byte content, in listing order) and the created
symlinks are an association of publish path to link target.  Paths are
lists of components (the code only ever joins and splits whole
components).  `hashlib.md5` is external and is idealized as an injective
function of the content, so comparing checksums is comparing contents
(`md5_for_file` reads the whole file in 1 MiB blocks, so its digest is a
function of the byte content only).  `os.chmod` changes permission bits,
which are outside the modelled state. -/

structure StoreFile where
  name : String
  content : List Nat
deriving DecidableEq, Repr

structure FS where
  /-- Files physically in the store directory, in listing order. -/
  store : List StoreFile
  /-- Symlinks created so far: publish path to link target (a path
  relative to the publish path's parent directory). -/
  links : List (List String × List String)
deriving DecidableEq, Repr

/-- Index of the last occurrence of `ch`, if any. -/
def lastIdxOf (ch : Char) : List Char → Option Nat
  | [] => none
  | c :: rest =>
    match lastIdxOf ch rest with
    | some i => some (i + 1)
    | none => if c = ch then some 0 else none

/-- Python `os.path.splitext` on a bare file name (no `/`): split at the
last `.` unless every character before it is also a `.`. -/
def pySplitext (n : String) : String × String :=
  match lastIdxOf '.' n.data with
  | none => (n, "")
  | some i =>
    if (n.data.take i).any (· ≠ '.') then (⟨n.data.take i⟩, ⟨n.data.drop i⟩)
    else (n, "")

/-- One insertion step of `files_keyed_by_size`: append the path to the
existing list for this size, or start a new entry (mirrors the
`if file_size not in output.keys()` branch of the source). -/
def sizeIdxAdd (idx : List (Nat × List (List String))) (size : Nat) (p : List String) :
    List (Nat × List (List String)) :=
  if idx.any (fun e => e.1 = size) then
    idx.map (fun e => if e.1 = size then (e.1, e.2 ++ [p]) else e)
  else idx ++ [(size, [p])]

/-- Embedding of `filesystem.files_keyed_by_size` (lines 600-627): fold
the listing of the store directory into a size-keyed dictionary whose
values are full paths in listing order. -/
def files_keyed_by_size (data_d : List String) (fs : FS) :
    List (Nat × List (List String)) :=
  fs.store.foldl (fun idx f => sizeIdxAdd idx f.content.length (data_d ++ [f.name])) []

/-- Dictionary lookup `data_sizes[size]`, `none` for the `KeyError` the
source catches and turns into an empty candidate list. -/
def dictGet (idx : List (Nat × List (List String))) (size : Nat) :
    Option (List (List String)) :=
  (idx.find? (fun e => e.1 = size)).map (·.2)

/-- Content of the file at path `p` if `p` lies directly in the store
directory, else `none` (reading anywhere else is outside the model). -/
def contentAt (fs : FS) (data_d : List String) (p : List String) : Option (List Nat) :=
  match p.getLast? with
  | some leaf =>
    if p.dropLast = data_d then (fs.store.find? (fun f => f.name = leaf)).map (·.content)
    else none
  | none => none

/-- The versioned destination name `base + "." + ver_prefix +
str(v).rjust(num_digits, "0") + ext` of `copy_and_add_ver_num`. -/
def verName (base pre ext : String) (nd : Nat) (v : Nat) : String :=
  base ++ "." ++ pre ++ (⟨rjust0 nd (natDigits v)⟩ : String) ++ ext

/-- The version number chosen by the `while True` loop of
`copy_and_add_ver_num`: the smallest `v ≥ 1` whose versioned name is not
yet taken.  Among `1 … names.length + 1` some name is always free
(distinct version numbers give distinct names), so the search is bounded;
the `getD` fallback is unreachable. -/
def findFreeVer (names : List String) (base pre ext : String) (nd : Nat) : Nat :=
  (((List.range (names.length + 1)).map (· + 1)).find?
    (fun v => ! names.contains (verName base pre ext nd v))).getD (names.length + 1)

/-- Embedding of `filesystem.copy_and_add_ver_num` (lines 631-675) as
called by `copy_file_deduplicated` (`do_verified_copy = False`, so the
copy is a plain `shutil.copy`): split the source name into base and
extension, find the first free versioned name in the destination
directory, and copy the source content there.  Returns the destination
path and the new state. -/
def copy_and_add_ver_num (srcContent : List Nat) (source_n : String)
    (data_d : List String) (ver_pre : String) (num_digits : Nat) (fs : FS) :
    List String × FS :=
  let (base, ext) := pySplitext source_n
  let v := findFreeVer (fs.store.map (·.name)) base ver_pre ext num_digits
  let nm := verName base ver_pre ext num_digits v
  (data_d ++ [nm], { fs with store := fs.store ++ [⟨nm, srcContent⟩] })

/-- Elementwise common-prefix length of two component lists
(`os.path.commonprefix` on split paths). -/
def commonPreLen : List String → List String → Nat
  | a :: as, b :: bs => if a = b then commonPreLen as bs + 1 else 0
  | _, _ => 0

/-- Python `os.path.relpath(target, start)` on absolute component paths:
climb out of the non-shared part of `start` with `..` components, then
descend into the non-shared part of `target`; `["."]` when they are
equal. -/
def pyRelpath (target start : List String) : List String :=
  let c := commonPreLen target start
  let rel := List.replicate (start.length - c) ".." ++ target.drop c
  if rel = [] then ["."] else rel

/-- One step of path normalization: skip `.`, resolve `..` by dropping
the last component, append anything else. -/
def normSeg (acc : List String) (seg : String) : List String :=
  if seg = "." then acc
  else if seg = ".." then acc.dropLast
  else acc ++ [seg]

/-- Normalize a component path by resolving `.` and `..` (the resolution
the OS performs when a symlink's relative target is followed from the
link's directory). -/
def normPath (p : List String) : List String :=
  p.foldl normSeg []

/-- Resolve the symlink at `p`: where its stored relative target points
when followed from `p`'s parent directory. -/
def resolveLink (fs : FS) (p : List String) : Option (List String) :=
  (fs.links.find? (fun e => e.1 = p)).map (fun e => normPath (p.dropLast ++ e.2))

/-- The candidate-scanning loop of `copy_file_deduplicated`: md5 each
candidate in order and stop at the first whose checksum equals the
source's.  `none` models the `IOError` of `md5_for_file` on an unreadable
candidate path; `some none` means no candidate matched. -/
def findMd5Match (fs : FS) (data_d : List String) (srcContent : List Nat) :
    List (List String) → Option (Option (List String))
  | [] => some none
  | p :: ps =>
    match contentAt fs data_d p with
    | none => none
    | some c =>
      if srcContent = c then some (some p)
      else findMd5Match fs data_d srcContent ps

/-- Embedding of `filesystem.copy_file_deduplicated` (lines 679-755).
The source file is given by its name and byte content; `data_sizes` is
the caller-supplied size dictionary (the source takes it as an argument
and never rebuilds it).  Returns the canonical stored path and the new
state; `none` models a raised exception (the `assert not
dest_p.startswith(data_d)` precondition, transcribed on component paths,
or an unreadable candidate).  After matching or copying, the source
chmods the canonical file (outside the modelled state), removes any
existing entry at the publish path and symlinks the publish path to the
canonical file through a path relative to the publish path's parent. -/
def copy_file_deduplicated (srcContent : List Nat) (source_n : String)
    (dest_p data_d : List String) (data_sizes : List (Nat × List (List String)))
    (ver_pre : String) (num_digits : Nat) (fs : FS) :
    Option (List String × FS) := do
  if data_d.isPrefixOf dest_p then none
  else do
    let size := srcContent.length
    let possible := (dictGet data_sizes size).getD []
    let matched ← findMd5Match fs data_d srcContent possible
    let (matched_p, fs1) :=
      match matched with
      | some p => (p, fs)
      | none => copy_and_add_ver_num srcContent source_n data_d ver_pre num_digits fs
    let dest_parent := dest_p.dropLast
    let matched_file_n := (matched_p.getLast?).getD ""
    let relative_p := pyRelpath data_d dest_parent ++ [matched_file_n]
    let links1 := (fs1.links.filter (fun e => e.1 ≠ dest_p)) ++ [(dest_p, relative_p)]
    pure (matched_p, { fs1 with links := links1 })

/-- Specification-side restatement of the amended C3 precedence, written
positionally: a null requested padding gives width 1 outright; a
requested padding of 0 gives the digit count of the largest expanded
frame (1 if `frames` is empty); otherwise a spec containing `#` gives the
number of characters of the spec from its first `#` to the end (for a
trailing run of N hashes this is N), `@` likewise when no `#` occurs; and
otherwise the requested padding is used literally. -/
def calcPaddingDescribed (frames : List Int) (spec : String) (req : Option Nat) : Nat :=
  match req with
  | none => 1
  | some 0 => ((frames.max?).map (fun m => (intDigits m).length)).getD 1
  | some p =>
    match findSub ['#'] spec.data with
    | some i => spec.data.length - i
    | none =>
      match findSub ['@'] spec.data with
      | some i => spec.data.length - i
      | none => p

/-- Position-and-group form of `firstPrintfTok`, used by the amended
specification description of C8: earliest position where `%\d+d`
matches, together with its digit group. -/
def firstPrintfPos : List Char → Option (Nat × List Char)
  | [] => none
  | c :: cs =>
    match printfTokenAt (c :: cs) with
    | some ds => some (0, ds)
    | none => (firstPrintfPos cs).map (fun p => (p.1 + 1, p.2))

/-- Position form of `firstHashTok`: earliest position where `[\._]#+`
matches, with the delimiter and the maximal run length there. -/
def firstHashPos : List Char → Option (Nat × Char × Nat)
  | [] => none
  | c :: cs =>
    match hashTokenAt (c :: cs) with
    | some t => some (0, t)
    | none => (firstHashPos cs).map (fun p => (p.1 + 1, p.2))

/-- Specification-side restatement of the amended C8: when some `.`- or
`_`-preceded printf token exists, the *first* `%\d+d` occurrence anywhere
(whatever precedes it) is cut out at its position and replaced by
`\d{N}`; otherwise the first `.`/`_`-preceded hash run is cut out at its
position (delimiter included) and replaced by the escaped delimiter plus
`\d{run}` or `\d+` according to `match_hash_length`; otherwise the input
is returned whole. -/
def seqMarkerAmended (s : String) (mh : Bool) : String × List RAtom × String :=
  if hasPrecededPrintf s.data then
    match firstPrintfPos s.data with
    | some (j, ds) =>
      (⟨s.data.take j⟩, List.replicate (parseNat ds) RAtom.digit,
       ⟨s.data.drop (j + (ds.length + 2))⟩)
    | none => (s, [], "")
  else
    match firstHashPos s.data with
    | some (j, delim, run) =>
      (⟨s.data.take j⟩,
       RAtom.lit delim ::
         (if mh then List.replicate run RAtom.digit else [RAtom.digitPlus]),
       ⟨s.data.drop (j + (1 + run))⟩)
    | none => (s, [], "")

/-! ## Claim C2: `expand_frame_spec` on valid frame-range specs

A valid frame-range spec per the specification grammar is a comma join of
subranges `start[-end[(x|:)step]]` with decimal numerals and a non-zero
step.  `Subrange` and `renderSpec` build exactly those strings, and
`srFrames` is the specification-side description of one subrange's
frames ("from start to end inclusive, stepping by the given step,
descending when the step is negative"). -/

structure Subrange where
  start : Nat
  stop : Option Nat := none
  /-- Step marker and value: `true` renders the `:` marker, `false` the
  `x` marker. -/
  step : Option (Bool × Int) := none
deriving DecidableEq, Repr

/-- Well-formedness per the spec grammar: a step only occurs together
with an end value, and an explicit step is non-zero. -/
def Subrange.wf (sr : Subrange) : Prop :=
  (sr.stop = none → sr.step = none) ∧ (sr.step.map (·.2)) ≠ some 0

instance (sr : Subrange) : Decidable sr.wf := by
  unfold Subrange.wf
  infer_instance

/-- Text of one subrange. -/
def renderSubrange (sr : Subrange) : List Char :=
  natDigits sr.start ++
    (match sr.stop with
     | none => []
     | some e =>
       '-' :: (natDigits e ++
         (match sr.step with
          | none => []
          | some p => (if p.1 then ':' else 'x') :: intDigits p.2)))

/-- Comma join of rendered subranges. -/
def joinComma : List (List Char) → List Char
  | [] => []
  | [l] => l
  | l :: rest => l ++ ',' :: joinComma rest

/-- Text of a whole frame-range spec: comma join of its subranges. -/
def renderSpec (srs : List Subrange) : String :=
  ⟨joinComma (srs.map renderSubrange)⟩

/-- Ascending frames `start, start + st, …` while still at most `e`. -/
def srUp (start e : Int) (st : Nat) : List Int :=
  if h : 0 < st ∧ start ≤ e then start :: srUp (start + st) e st else []
termination_by (e + 1 - start).toNat
decreasing_by
  rcases h with ⟨h1, h2⟩
  omega

/-- Descending frames `start, start - st, …` while still at least `e`. -/
def srDown (start e : Int) (st : Nat) : List Int :=
  if h : 0 < st ∧ e ≤ start then start :: srDown (start - st) e st else []
termination_by (start + 1 - e).toNat
decreasing_by
  rcases h with ⟨h1, h2⟩
  omega

/-- Specification-side frames of one subrange, following the claim's
words: no end means the single value `start`; otherwise iterate from
`start` to `end` inclusive stepping by the step (default 1), walking
downward when the step is negative. -/
def srFrames (sr : Subrange) : List Int :=
  match sr.stop with
  | none => [(sr.start : Int)]
  | some e =>
    let step : Int := ((sr.step.map (·.2)).getD 1)
    if 0 < step then srUp sr.start e step.toNat
    else srDown sr.start e (- step).toNat

/-- The groups the frame-item pattern captures on a rendered subrange. -/
def renderGroups (sr : Subrange) :
    List Char × Option (List Char) × Option (List Char) :=
  (natDigits sr.start, sr.stop.map natDigits, sr.step.map (fun p => intDigits p.2))

/-- Name given to the first stored version of a source file `n`:
`base + "." + pre + 0…01 + ext`. -/
def firstVerName (n pre : String) (nd : Nat) : String :=
  verName (pySplitext n).1 pre (pySplitext n).2 nd 1

/-! ## Theorems, lemmas and claim verdicts -/

example : find_frame_spec "shot.1-10.exr" = ("shot.", "1-10", ".exr") := by decide
example : find_frame_spec "filename.1-10x2,20,30,32-40.tif"
    = ("filename.", "1-10x2,20,30,32-40", ".tif") := by decide
example : find_frame_spec "file.exr" = ("file.exr", "", "") := by decide
example : find_frame_spec "a.1-5###.exr" = ("a.", "1-5###", ".exr") := by decide
example : find_frame_spec "1.2-3." = ("1.", "2-3", ".") := by decide

example : expand_frame_spec "1-5" = some [1, 2, 3, 4, 5] := by decide
example : expand_frame_spec "1-5x2" = some [1, 3, 5] := by decide
example : expand_frame_spec "5-1x-1" = some [1, 2, 3, 4, 5] := by decide
example : expand_frame_spec "1-5,8,10-12" = some [1, 2, 3, 4, 5, 8, 10, 11, 12] := by decide
example : expand_frame_spec "1-10" = some [1, 2, 3, 4, 5, 6, 7, 8, 9, 10] := by decide
example : expand_frame_spec "1-5x0" = none := by decide

example : calc_padding [1, 2, 3, 4, 5] "1-5###" none = 1 := by decide
example : calc_padding [1, 2, 3, 4, 5] "1-5###" (some 7) = 3 := by decide
example : calc_padding [1, 2, 3, 4, 5] "1-5" (some 4) = 4 := by decide
example : calc_padding [8, 12] "" (some 0) = 2 := by decide

example : seq_id_to_regex "file.#.exr" false
    = ("file", [RAtom.lit '.', RAtom.digitPlus], ".exr") := by decide
example : seq_id_to_regex "file.###.exr" true
    = ("file", [RAtom.lit '.', RAtom.digit, RAtom.digit, RAtom.digit], ".exr") := by decide
example : seq_id_to_regex "file_%03d.exr" false
    = ("file_", [RAtom.digit, RAtom.digit, RAtom.digit], ".exr") := by decide
example : seq_id_to_regex "x%02d.%03d" false
    = ("x", [RAtom.digit, RAtom.digit], ".%03d") := by decide
example : seq_id_to_regex "shot." false = ("shot.", [], "") := by decide

example : udim_id_to_regex "file_<UDIM>.exr" none true
    = ("file_", [RAtom.nonzero, RAtom.digit, RAtom.digit, RAtom.digit], ".exr") := by decide

example : seq_and_udim_ids_to_regex "shot." false none true
    = escapeLits "shot." := by decide

example : expand_files "/tmp" "shot.1-3.exr" ["shot.0001.exr", "shot.0002.exr", "shot.0003.exr"]
    (some 4) none true false
    = some (["/tmp/shot.0001.exr", "/tmp/shot.0002.exr", "/tmp/shot.0003.exr"], []) := by decide
example : expand_files "/tmp" "shot.1-3.exr" ["shot.0001.exr", "shot.0003.exr"]
    (some 4) none true false
    = some (["/tmp/shot.0001.exr", "/tmp/shot.0003.exr"], ["0002"]) := by decide

example :
    copy_file_deduplicated [7, 7] "shot.exr" ["pub", "shot.exr"] ["store"] [] "v" 4
      ⟨[], []⟩
    = some (["store", "shot.v0001.exr"],
        ⟨[⟨"shot.v0001.exr", [7, 7]⟩],
         [(["pub", "shot.exr"], ["..", "store", "shot.v0001.exr"])]⟩) := by decide

/-! ## Claim C4: round trip of `expand_files` on a concrete sequence -/

/-- C4: for a directory containing exactly `shot.0001.exr` …
`shot.0010.exr`, `expand_files` on `<dir>/shot.1-10.exr` with
`padding = 4` returns all ten full paths sorted lexically and an empty
missing list; with `shot.0005.exr` absent the same call returns the nine
matched files and the missing list `["0005"]`. -/
theorem c4_expand_files_round_trip :
    expand_files "/projects/seq" "shot.1-10.exr"
      ["shot.0001.exr", "shot.0002.exr", "shot.0003.exr", "shot.0004.exr",
       "shot.0005.exr", "shot.0006.exr", "shot.0007.exr", "shot.0008.exr",
       "shot.0009.exr", "shot.0010.exr"]
      (some 4) none true false
    = some
      (["/projects/seq/shot.0001.exr", "/projects/seq/shot.0002.exr",
        "/projects/seq/shot.0003.exr", "/projects/seq/shot.0004.exr",
        "/projects/seq/shot.0005.exr", "/projects/seq/shot.0006.exr",
        "/projects/seq/shot.0007.exr", "/projects/seq/shot.0008.exr",
        "/projects/seq/shot.0009.exr", "/projects/seq/shot.0010.exr"], [])
    ∧ expand_files "/projects/seq" "shot.1-10.exr"
      ["shot.0001.exr", "shot.0002.exr", "shot.0003.exr", "shot.0004.exr",
       "shot.0006.exr", "shot.0007.exr", "shot.0008.exr",
       "shot.0009.exr", "shot.0010.exr"]
      (some 4) none true false
    = some
      (["/projects/seq/shot.0001.exr", "/projects/seq/shot.0002.exr",
        "/projects/seq/shot.0003.exr", "/projects/seq/shot.0004.exr",
        "/projects/seq/shot.0006.exr", "/projects/seq/shot.0007.exr",
        "/projects/seq/shot.0008.exr", "/projects/seq/shot.0009.exr",
        "/projects/seq/shot.0010.exr"], ["0005"]) := by
  constructor
  · decide
  · decide

/-! ## Claim C5: the no-framespec branch of `expand_files` -/

/-- C5: the claim (and the function's own docstring, which promises "a
list of actual files on disk that match these patterns") says that with
no frame spec the compiled literal/placeholder pattern is matched against
the directory entries and all matching entries are returned.  The code's
`else` branch instead returns the single uncompiled pattern path
`os.path.join(parent_d, file_pattern_n)` without consulting the listing:
on a directory containing `file_1001.exr` and the pattern
`file_<UDIM>.exr` (no frame spec), the compiled pattern does match the
entry, yet the call returns only the raw pattern path, which is not a
directory entry at all. -/
theorem c5_no_framespec_branch_returns_raw_pattern :
    expand_files "/tmp" "file_<UDIM>.exr" ["file_1001.exr"] none none true false
      = some (["/tmp/file_<UDIM>.exr"], [])
    ∧ find_frame_spec "file_<UDIM>.exr" = ("file_<UDIM>.exr", "", "")
    ∧ matchAtoms (seq_and_udim_ids_to_regex "file_<UDIM>.exr" false none true)
        "file_1001.exr".data = true
    ∧ ¬ ("file_<UDIM>.exr" ∈ ["file_1001.exr"]) := by
  exact ⟨by decide, by decide, by decide, by decide⟩

/-! ## Claim C3: `calc_padding` precedence -/

/-- C3 counterexample: the claimed precedence fails on the code.  The
claim's own example `"1-5###"` with no requested padding yields width 1
(the code returns 1 for `padding=None` before ever looking at the spec),
not 4; and a non-null non-zero requested padding of 7 is not used
literally, because the marker branch runs first and yields 3 (which is
the run length, not run length + 1). -/
theorem c3_counterexample_calc_padding :
    calc_padding [1, 2, 3, 4, 5] "1-5###" none = 1
    ∧ calc_padding [1, 2, 3, 4, 5] "1-5###" none ≠ 4
    ∧ calc_padding [1, 2, 3, 4, 5] "1-5###" (some 7) = 3
    ∧ calc_padding [1, 2, 3, 4, 5] "1-5###" (some 7) ≠ 7 := by
  exact ⟨by decide, by decide, by decide, by decide⟩

lemma findSub_single_none_iff (c : Char) (cs : List Char) :
    findSub [c] cs = none ↔ ¬ c ∈ cs := by
  induction cs with
  | nil => simp [findSub]
  | cons d ds ih =>
    by_cases hcd : c = d
    · subst hcd
      simp [findSub, List.isPrefixOf]
    · simp only [findSub, List.isPrefixOf, Bool.and_true,
        beq_eq_false_iff_ne.mpr hcd, Bool.false_eq_true, if_false,
        Option.map_eq_none', List.mem_cons]
      rw [ih]
      constructor
      · intro h hmem
        rcases hmem with h1 | h2
        · exact hcd h1
        · exact h h2
      · intro h hmem
        exact h (Or.inr hmem)

lemma findSub_single_drop (c : Char) (cs : List Char) (i : Nat)
    (h : findSub [c] cs = some i) :
    afterFirst c cs = cs.drop (i + 1) ∧ i < cs.length := by
  induction cs generalizing i with
  | nil => simp [findSub] at h
  | cons d ds ih =>
    by_cases hcd : c = d
    · subst hcd
      simp [findSub, List.isPrefixOf] at h
      subst h
      simp [afterFirst]
    · simp only [findSub, List.isPrefixOf, Bool.and_true,
        beq_eq_false_iff_ne.mpr hcd, Bool.false_eq_true, if_false] at h
      rcases Option.map_eq_some'.mp h with ⟨j, hj, rfl⟩
      rcases ih j hj with ⟨h1, h2⟩
      refine ⟨?_, by simpa using Nat.succ_lt_succ h2⟩
      simp [afterFirst, Ne.symm hcd, h1]

/-- C3 amended: the padding precedence of `calc_padding`, highest first,
is (1) requested padding null gives width 1 outright (markers in the spec
are never consulted); (2) requested padding 0 gives the digit count of
the largest expanded frame, minimum 1 when `frames` is empty; (3) for any
other requested padding, a spec containing `#` gives the number of
characters of the spec from its first `#` to the end — for a spec ending
in a run of N hashes this is N, not N + 1 — and a spec containing `@`
but no `#` likewise; (4) otherwise the requested padding is used
literally. -/
theorem c3_amended_calc_padding (frames : List Int) (spec : String)
    (req : Option Nat) :
    calc_padding frames spec req = calcPaddingDescribed frames spec req := by
  match req with
  | none => rfl
  | some p =>
    by_cases hp : p = 0
    · subst hp
      cases hm : frames.max? <;> simp [calc_padding, calcPaddingDescribed, hm]
    · simp only [calc_padding, calcPaddingDescribed, if_neg hp]
      by_cases hh : '#' ∈ spec.data
      · have hc : spec.data.contains '#' = true := List.elem_iff.mpr hh
        have hne : spec ≠ "" := by
          intro h
          subst h
          simp at hh
        obtain ⟨i, hi⟩ : ∃ i, findSub ['#'] spec.data = some i := by
          cases hfs : findSub ['#'] spec.data with
          | none => exact absurd ((findSub_single_none_iff _ _).mp hfs) (by simp [hh])
          | some i => exact ⟨i, rfl⟩
        rcases findSub_single_drop '#' spec.data i hi with ⟨hdrop, hlt⟩
        simp only [if_pos hne, hc, if_pos rfl, hi, hdrop, List.length_drop, if_true]
        omega
      · have hc : spec.data.contains '#' = false := by
          simpa using fun hx => hh (List.elem_iff.mp hx)
        have hfs : findSub ['#'] spec.data = none := (findSub_single_none_iff _ _).mpr hh
        by_cases ha : '@' ∈ spec.data
        · have hca : spec.data.contains '@' = true := List.elem_iff.mpr ha
          have hne : spec ≠ "" := by
            intro h
            subst h
            simp at ha
          obtain ⟨i, hi⟩ : ∃ i, findSub ['@'] spec.data = some i := by
            cases hfa : findSub ['@'] spec.data with
            | none => exact absurd ((findSub_single_none_iff _ _).mp hfa) (by simp [ha])
            | some i => exact ⟨i, rfl⟩
          rcases findSub_single_drop '@' spec.data i hi with ⟨hdrop, hlt⟩
          simp only [if_pos hne, hc, Bool.false_eq_true, if_false,
            hca, if_pos rfl, hfs, hi, hdrop, List.length_drop, if_true]
          omega
        · have hca : spec.data.contains '@' = false := by
            simpa using fun hx => ha (List.elem_iff.mp hx)
          have hfa : findSub ['@'] spec.data = none := (findSub_single_none_iff _ _).mpr ha
          by_cases hne : spec = ""
          · subst hne
            simp [hfs, hfa]
          · simp [hne, hh, ha, hc, hca, hfs, hfa]

/-! ## Claim C10: where the size index comes from -/

/-- C10 counterexample: `copy_file_deduplicated` takes its
size-to-candidates index as the caller-supplied `data_sizes` argument and
never lists the store directory itself.  Two calls in the *same* store
state (one store file whose content equals the source) behave
differently depending only on the supplied index: with an empty index the
call copies a duplicate (store grows to 2 files), with a freshly built
index it deduplicates (store stays at 1 file) — so the candidate set does
not depend only on the store directory's contents at call time. -/
theorem c10_counterexample_supplied_index :
    (copy_file_deduplicated [1, 2, 3] "a.txt" ["pub", "x"] ["store"]
        [] "v" 4 ⟨[⟨"a.v0001.txt", [1, 2, 3]⟩], []⟩).map (fun r => r.2.store.length)
      = some 2
    ∧ (copy_file_deduplicated [1, 2, 3] "a.txt" ["pub", "x"] ["store"]
        (files_keyed_by_size ["store"] ⟨[⟨"a.v0001.txt", [1, 2, 3]⟩], []⟩) "v" 4
        ⟨[⟨"a.v0001.txt", [1, 2, 3]⟩], []⟩).map (fun r => r.2.store.length)
      = some 1 := by
  exact ⟨by decide, by decide⟩

/-- C10 amended: every deduplicated-copy operation obtains its
size-to-candidates index from the caller-supplied `data_sizes` argument
(`files_keyed_by_size` exists to build one from a directory listing, but
`copy_file_deduplicated` never calls it), and the only part of that
argument it consults is the candidate list stored under the source's
size: two calls that agree there (and in everything else) behave
identically, whatever the rest of the two indexes contain. -/
theorem c10_amended_candidates_from_supplied_index
    (srcContent : List Nat) (source_n : String) (dest_p data_d : List String)
    (idx1 idx2 : List (Nat × List (List String))) (pre : String) (nd : Nat) (fs : FS)
    (h : dictGet idx1 srcContent.length = dictGet idx2 srcContent.length) :
    copy_file_deduplicated srcContent source_n dest_p data_d idx1 pre nd fs
      = copy_file_deduplicated srcContent source_n dest_p data_d idx2 pre nd fs := by
  simp only [copy_file_deduplicated, h]

/-- Witness for the amended C10 theorem at a concrete input: an index
holding an unrelated size entry and the empty index agree at the source's
size, so the calls coincide. -/
theorem c10_amended_witness :
    dictGet [(5, [["q"]])] ([1, 2, 3] : List Nat).length
      = dictGet [] ([1, 2, 3] : List Nat).length
    ∧ copy_file_deduplicated [1, 2, 3] "a.txt" ["pub", "x"] ["store"]
        [(5, [["q"]])] "v" 4 ⟨[], []⟩
      = copy_file_deduplicated [1, 2, 3] "a.txt" ["pub", "x"] ["store"]
        [] "v" 4 ⟨[], []⟩ :=
  ⟨by decide,
   c10_amended_candidates_from_supplied_index _ _ _ _ _ _ _ _ _ (by decide)⟩

/-! ## Claim C8: `seq_id_to_regex` marker recognition -/

/-- C8 counterexample: in `"x%02d.%03d"` the only `.`- or `_`-preceded
printf token is the trailing `%03d`, yet the function uses the *first*
`%\d+d` occurrence `%02d`, which is preceded by `x` — so a marker is
recognized at a position not preceded by `.` or `_`, and it is not the
first occurrence of the `.`/`_`-preceded kind the claim describes. -/
theorem c8_counterexample_seq_id_to_regex :
    seq_id_to_regex "x%02d.%03d" false
      = ("x", [RAtom.digit, RAtom.digit], ".%03d")
    ∧ ("x", [RAtom.digit, RAtom.digit], ".%03d")
      ≠ (("x%02d", [RAtom.digit, RAtom.digit, RAtom.digit], "") :
          String × List RAtom × String) := by
  exact ⟨by decide, by decide⟩

lemma takeDigitsL_concat (cs : List Char) :
    (takeDigitsL cs).1 ++ (takeDigitsL cs).2 = cs := by
  induction cs with
  | nil => simp [takeDigitsL]
  | cons c cs ih =>
    by_cases h : isDig c
    · simp [takeDigitsL, h, ih]
    · simp [takeDigitsL, h]

lemma takeDigitsL_digits (cs : List Char) :
    ∀ x ∈ (takeDigitsL cs).1, isDig x = true := by
  induction cs with
  | nil => simp [takeDigitsL]
  | cons c cs ih =>
    by_cases h : isDig c
    · simpa [takeDigitsL, h] using fun x hx => ih x hx
    · simp [takeDigitsL, h]

lemma takeDigitsL_head_not_dig (cs : List Char) :
    ∀ x, (takeDigitsL cs).2.head? = some x → isDig x = false := by
  induction cs with
  | nil => simp [takeDigitsL]
  | cons c cs ih =>
    by_cases h : isDig c
    · simpa [takeDigitsL, h] using ih
    · simp [takeDigitsL, h]

lemma takeDigitsL_exact (a b : List Char) (ha : ∀ x ∈ a, isDig x = true)
    (hb : ∀ x, b.head? = some x → isDig x = false) :
    takeDigitsL (a ++ b) = (a, b) := by
  induction a with
  | nil =>
    cases b with
    | nil => simp [takeDigitsL]
    | cons x xs =>
      have := hb x (by simp)
      simp [takeDigitsL, this]
  | cons c cs ih =>
    have hc := ha c (by simp)
    have hrec := ih (fun x hx => ha x (by simp [hx]))
    simp [takeDigitsL, hc, hrec]

lemma printfTokenAt_isSome_of_shape (ds rest : List Char) (hds : ds ≠ [])
    (hdig : ∀ x ∈ ds, isDig x = true) :
    printfTokenAt ('%' :: ds ++ 'd' :: rest) = some ds := by
  have hd : ∀ x, ('d' :: rest).head? = some x → isDig x = false := by
    intro x hx
    simp at hx
    subst hx
    decide
  simp [printfTokenAt, takeDigitsL_exact ds ('d' :: rest) hdig hd, hds]

lemma printfTokenAt_shape (cs ds : List Char) (h : printfTokenAt cs = some ds) :
    ds ≠ [] ∧ (∀ x ∈ ds, isDig x = true) ∧
      ('%' :: ds ++ ['d']).isPrefixOf cs = true := by
  cases cs with
  | nil => simp [printfTokenAt] at h
  | cons c rest =>
    simp only [printfTokenAt] at h
    by_cases hc : c = '%'
    · subst hc
      simp only [if_pos rfl] at h
      by_cases h1 : (takeDigitsL rest).1 = []
      · simp [h1] at h
      · simp only [h1, if_false] at h
        cases h2 : (takeDigitsL rest).2 with
        | nil => rw [h2] at h; simp at h
        | cons d r2 =>
          rw [h2] at h
          by_cases hd : d = 'd'
          · subst hd
            simp at h
            subst h
            refine ⟨h1, takeDigitsL_digits rest, ?_⟩
            have hcat := takeDigitsL_concat rest
            rw [h2] at hcat
            rw [List.isPrefixOf_iff_prefix]
            exact ⟨r2, by simpa using congrArg (List.cons '%') hcat⟩
          · simp [hd] at h
    · simp [hc] at h

lemma printfTokenAt_of_prefixed (ds cs : List Char) (hds : ds ≠ [])
    (hdig : ∀ x ∈ ds, isDig x = true)
    (hp : ('%' :: ds ++ ['d']).isPrefixOf cs = true) :
    printfTokenAt cs = some ds := by
  rcases List.isPrefixOf_iff_prefix.mp hp with ⟨t, ht⟩
  have : cs = '%' :: ds ++ 'd' :: t := by
    rw [← ht]
    simp
  subst this
  exact printfTokenAt_isSome_of_shape ds t hds hdig

lemma firstPrintfTok_eq_pos (cs : List Char) :
    firstPrintfTok cs = (firstPrintfPos cs).map (·.2) := by
  induction cs with
  | nil => simp [firstPrintfTok, firstPrintfPos]
  | cons c rest ih =>
    simp only [firstPrintfTok, firstPrintfPos]
    cases printfTokenAt (c :: rest) with
    | some ds => simp
    | none =>
      simp only [ih]
      cases firstPrintfPos rest <;> simp

lemma firstPrintfPos_shape (cs : List Char) (j : Nat) (ds : List Char)
    (h : firstPrintfPos cs = some (j, ds)) :
    ds ≠ [] ∧ (∀ x ∈ ds, isDig x = true) := by
  induction cs generalizing j with
  | nil => simp [firstPrintfPos] at h
  | cons c rest ih =>
    simp only [firstPrintfPos] at h
    cases htok : printfTokenAt (c :: rest) with
    | some ds0 =>
      rw [htok] at h
      simp at h
      rcases h with ⟨_, h2⟩
      subst h2
      exact ⟨(printfTokenAt_shape _ _ htok).1, (printfTokenAt_shape _ _ htok).2.1⟩
    | none =>
      rw [htok] at h
      simp only [Option.map_eq_some'] at h
      rcases h with ⟨⟨j0, ds0⟩, hrec, heq⟩
      simp at heq
      rcases heq with ⟨_, h2⟩
      subst h2
      exact ih j0 hrec

lemma firstPrintfPos_findSub (cs : List Char) (j : Nat) (ds : List Char)
    (h : firstPrintfPos cs = some (j, ds)) :
    findSub ('%' :: ds ++ ['d']) cs = some j := by
  induction cs generalizing j with
  | nil => simp [firstPrintfPos] at h
  | cons c rest ih =>
    simp only [firstPrintfPos] at h
    cases htok : printfTokenAt (c :: rest) with
    | some ds0 =>
      rw [htok] at h
      simp only [Option.some.injEq, Prod.mk.injEq] at h
      have hj : j = 0 := h.1.symm
      have hds : ds = ds0 := h.2.symm
      subst hj
      subst hds
      have hp := (printfTokenAt_shape _ _ htok).2.2
      simp only [findSub, hp, if_true]
    | none =>
      rw [htok] at h
      simp only [Option.map_eq_some'] at h
      rcases h with ⟨⟨j0, ds0⟩, hrec, heq⟩
      simp only [Option.some.injEq, Prod.mk.injEq] at heq
      have hj : j = j0 + 1 := heq.1.symm
      have hds : ds = ds0 := heq.2.symm
      subst hj
      subst hds
      have hshape := firstPrintfPos_shape rest j0 ds hrec
      have hnp : ('%' :: ds ++ ['d']).isPrefixOf (c :: rest) = false := by
        cases hb : ('%' :: ds ++ ['d']).isPrefixOf (c :: rest) with
        | false => rfl
        | true =>
          rw [printfTokenAt_of_prefixed ds (c :: rest) hshape.1 hshape.2 hb] at htok
          exact Option.noConfusion htok
      simp only [findSub, hnp, Bool.false_eq_true, if_false, ih j0 hrec,
        Option.map_some']

lemma hashTokenAt_shape (cs : List Char) (delim : Char) (run : Nat)
    (h : hashTokenAt cs = some (delim, run)) :
    (delim = '.' ∨ delim = '_') ∧ 1 ≤ run ∧
      (delim :: List.replicate run '#').isPrefixOf cs = true := by
  cases cs with
  | nil => simp [hashTokenAt] at h
  | cons c rest =>
    simp only [hashTokenAt] at h
    by_cases hc : c = '.' ∨ c = '_'
    · simp only [hc, if_true] at h
      by_cases hr : rest.takeWhile (· = '#') = []
      · simp [hr] at h
      · simp only [hr, if_false] at h
        simp only [Option.some.injEq, Prod.mk.injEq] at h
        have hd : delim = c := h.1.symm
        have hrun : run = (rest.takeWhile (· = '#')).length := h.2.symm
        subst hd
        subst hrun
        refine ⟨hc, ?_, ?_⟩
        · cases hx : rest.takeWhile (· = '#') with
          | nil => exact absurd hx hr
          | cons y ys => simp [hx]
        · have hrep : rest.takeWhile (· = '#')
              = List.replicate (rest.takeWhile (· = '#')).length '#' := by
            rw [List.eq_replicate_iff]
            exact ⟨rfl, fun b hb => by
              have := List.mem_takeWhile_imp hb
              simpa using this⟩
          rw [List.isPrefixOf_iff_prefix, List.cons_prefix_cons]
          exact ⟨rfl, hrep ▸ List.takeWhile_prefix _⟩
    · simp [hc] at h

lemma hashTokenAt_of_prefixed (delim : Char) (run : Nat) (cs : List Char)
    (hd : delim = '.' ∨ delim = '_') (hr : 1 ≤ run)
    (hp : (delim :: List.replicate run '#').isPrefixOf cs = true) :
    (hashTokenAt cs).isSome = true := by
  rcases List.isPrefixOf_iff_prefix.mp hp with ⟨t, ht⟩
  have hcs : cs = delim :: (List.replicate run '#' ++ t) := by
    rw [← ht]
    simp
  subst hcs
  have hrun : (List.replicate run '#' ++ t).takeWhile (· = '#') ≠ [] := by
    cases run with
    | zero => omega
    | succ k => simp [List.replicate_succ, List.takeWhile_cons]
  simp only [hashTokenAt, hd, if_true]
  rw [if_neg hrun]
  simp

lemma firstHashTok_eq_pos (cs : List Char) :
    firstHashTok cs = (firstHashPos cs).map (·.2) := by
  induction cs with
  | nil => simp [firstHashTok, firstHashPos]
  | cons c rest ih =>
    simp only [firstHashTok, firstHashPos]
    cases hashTokenAt (c :: rest) with
    | some t => simp
    | none =>
      simp only [ih]
      cases firstHashPos rest <;> simp

lemma firstHashPos_shape (cs : List Char) (j : Nat) (delim : Char) (run : Nat)
    (h : firstHashPos cs = some (j, delim, run)) :
    (delim = '.' ∨ delim = '_') ∧ 1 ≤ run := by
  induction cs generalizing j with
  | nil => simp [firstHashPos] at h
  | cons c rest ih =>
    simp only [firstHashPos] at h
    cases htok : hashTokenAt (c :: rest) with
    | some t =>
      rw [htok] at h
      simp only [Option.some.injEq, Prod.mk.injEq] at h
      have ht : t = (delim, run) := by
        rcases h with ⟨_, h2⟩
        exact h2
      subst ht
      have := hashTokenAt_shape (c :: rest) delim run htok
      exact ⟨this.1, this.2.1⟩
    | none =>
      rw [htok] at h
      simp only [Option.map_eq_some'] at h
      rcases h with ⟨⟨j0, t0⟩, hrec, heq⟩
      simp only [Option.some.injEq, Prod.mk.injEq] at heq
      have ht : t0 = (delim, run) := heq.2
      subst ht
      exact ih j0 hrec

lemma firstHashPos_findSub (cs : List Char) (j : Nat) (delim : Char) (run : Nat)
    (h : firstHashPos cs = some (j, delim, run)) :
    findSub (delim :: List.replicate run '#') cs = some j := by
  induction cs generalizing j with
  | nil => simp [firstHashPos] at h
  | cons c rest ih =>
    simp only [firstHashPos] at h
    cases htok : hashTokenAt (c :: rest) with
    | some t =>
      rw [htok] at h
      simp only [Option.some.injEq, Prod.mk.injEq] at h
      have hj : j = 0 := h.1.symm
      have ht : t = (delim, run) := h.2
      subst hj
      subst ht
      have hp := (hashTokenAt_shape _ _ _ htok).2.2
      simp only [findSub, hp, if_true]
    | none =>
      rw [htok] at h
      simp only [Option.map_eq_some'] at h
      rcases h with ⟨⟨j0, t0⟩, hrec, heq⟩
      simp only [Option.some.injEq, Prod.mk.injEq] at heq
      have hj : j = j0 + 1 := heq.1.symm
      have ht : t0 = (delim, run) := heq.2
      subst hj
      subst ht
      have hshape := firstHashPos_shape rest j0 delim run hrec
      have hnp : (delim :: List.replicate run '#').isPrefixOf (c :: rest) = false := by
        cases hb : (delim :: List.replicate run '#').isPrefixOf (c :: rest) with
        | false => rfl
        | true =>
          have := hashTokenAt_of_prefixed delim run (c :: rest) hshape.1 hshape.2 hb
          rw [htok] at this
          simp at this
      simp only [findSub, hnp, Bool.false_eq_true, if_false, ih j0 hrec,
        Option.map_some']

lemma hasPrecededPrintf_pos_isSome (cs : List Char)
    (h : hasPrecededPrintf cs = true) : (firstPrintfPos cs).isSome = true := by
  induction cs with
  | nil => simp [hasPrecededPrintf] at h
  | cons c rest ih =>
    simp only [hasPrecededPrintf, Bool.or_eq_true, Bool.and_eq_true] at h
    simp only [firstPrintfPos]
    cases htok : printfTokenAt (c :: rest) with
    | some ds => simp
    | none =>
      have hrest : (firstPrintfPos rest).isSome = true := by
        rcases h with ⟨_, hsome⟩ | hrec
        · cases rest with
          | nil => simp [printfTokenAt] at hsome
          | cons r rs =>
            simp only [firstPrintfPos]
            cases hx : printfTokenAt (r :: rs) with
            | some ds0 => simp
            | none => rw [hx] at hsome; simp at hsome
        · exact ih hrec
      cases hfp : firstPrintfPos rest with
      | none => rw [hfp] at hrest; simp at hrest
      | some p => simp

/-- C8 amended: a *hash* marker is recognized only when immediately
preceded by `.` or `_`; printf markers take precedence exactly when some
`.`- or `_`-preceded `%0Nd` token exists anywhere in the string, and the
occurrence then used is the first `%\d+d` occurrence in the string,
whatever character precedes it; a printf token yields a fragment
requiring exactly N digits (with no delimiter), and a hash marker yields
its delimiter plus a fragment requiring exactly the run's digit count
when `match_hash_length` is true and any number of digits otherwise;
in each case only the first occurrence of the winning kind is used.
Formally, `seq_id_to_regex` equals the position-based description
`seqMarkerAmended`. -/
theorem c8_amended_seq_id_to_regex (s : String) (mh : Bool) :
    seq_id_to_regex s mh = seqMarkerAmended s mh := by
  unfold seq_id_to_regex seqMarkerAmended
  by_cases hp : hasPrecededPrintf s.data
  · simp only [hp, if_true]
    cases hfp : firstPrintfPos s.data with
    | none =>
      have := hasPrecededPrintf_pos_isSome s.data hp
      rw [hfp] at this
      simp at this
    | some jd =>
      obtain ⟨j, ds⟩ := jd
      rw [firstPrintfTok_eq_pos, hfp]
      have hfind : findSub ('%' :: ds ++ ['d']) s.data = some j :=
        firstPrintfPos_findSub s.data j ds hfp
      simp only [Option.map_some', strSplitOnce, printfIdent, hfind]
      simp [List.length_append]
  · simp only [hp, Bool.false_eq_true, if_false]
    rw [firstHashTok_eq_pos]
    cases hfh : firstHashPos s.data with
    | none => simp
    | some jt =>
      obtain ⟨j, delim, run⟩ := jt
      have hfind : findSub (delim :: List.replicate run '#') s.data = some j :=
        firstHashPos_findSub s.data j delim run hfh
      simp only [Option.map_some', strSplitOnce, hfind]
      simp [Nat.add_comm]

/-! Numeral lemmas: `natDigits`/`parseNat` round-trip and digit facts. -/

lemma natDigitsF_fuel (f1 f2 n : Nat) (h1 : n < f1) (h2 : n < f2) :
    natDigitsF f1 n = natDigitsF f2 n := by
  induction n using Nat.strong_induction_on generalizing f1 f2 with
  | _ n ih =>
    match f1, f2 with
    | a + 1, b + 1 =>
      simp only [natDigitsF]
      by_cases hn : n < 10
      · simp [hn]
      · simp only [hn, if_false]
        have hrec : natDigitsF a (n / 10) = natDigitsF b (n / 10) :=
          ih (n / 10) (by omega) a b (by omega) (by omega)
        rw [hrec]

lemma natDigits_unfold (n : Nat) :
    natDigits n = if n < 10 then [Char.ofNat (48 + n)]
      else natDigits (n / 10) ++ [Char.ofNat (48 + n % 10)] := by
  by_cases h : n < 10
  · simp [natDigits, natDigitsF, h]
  · simp only [h, if_false, natDigits]
    have h1 : natDigitsF (n + 1) n
        = natDigitsF n (n / 10) ++ [Char.ofNat (48 + n % 10)] := by
      simp [natDigitsF, h]
    rw [h1, natDigitsF_fuel n (n / 10 + 1) (n / 10) (by omega) (by omega)]

lemma digChar_isDig (d : Nat) (h : d < 10) : isDig (Char.ofNat (48 + d)) = true := by
  interval_cases d <;> decide

lemma digChar_val (d : Nat) (h : d < 10) : digVal (Char.ofNat (48 + d)) = d := by
  interval_cases d <;> decide

lemma natDigits_digits (n : Nat) : ∀ c ∈ natDigits n, isDig c = true := by
  induction n using Nat.strong_induction_on with
  | _ n ih =>
    rw [natDigits_unfold]
    by_cases h : n < 10
    · simpa [h] using digChar_isDig n h
    · simp only [h, if_false]
      intro c hc
      rcases List.mem_append.mp hc with hmem | hmem
      · exact ih (n / 10) (by omega) c hmem
      · simp at hmem
        subst hmem
        exact digChar_isDig (n % 10) (by omega)

lemma natDigits_ne_nil (n : Nat) : natDigits n ≠ [] := by
  rw [natDigits_unfold]
  by_cases h : n < 10 <;> simp [h]

lemma parseNat_append_one (xs : List Char) (c : Char) :
    parseNat (xs ++ [c]) = parseNat xs * 10 + digVal c := by
  simp [parseNat, List.foldl_append]

lemma parseNat_natDigits (n : Nat) : parseNat (natDigits n) = n := by
  induction n using Nat.strong_induction_on with
  | _ n ih =>
    rw [natDigits_unfold]
    by_cases h : n < 10
    · simpa [h, parseNat] using digChar_val n h
    · simp only [h, if_false]
      rw [parseNat_append_one, ih (n / 10) (by omega), digChar_val (n % 10) (by omega)]
      omega

lemma intDigits_nonneg (i : Int) (h : 0 ≤ i) : intDigits i = natDigits i.toNat := by
  simp [intDigits, not_lt.mpr h]

lemma parseInt_intDigits (i : Int) : parseInt (intDigits i) = i := by
  by_cases h : i < 0
  · simp only [intDigits, h, if_true, parseInt, if_pos rfl, parseNat_natDigits]
    omega
  · rw [intDigits_nonneg i (by omega)]
    have hne := natDigits_ne_nil i.toNat
    have hdig := natDigits_digits i.toNat
    cases hh : natDigits i.toNat with
    | nil => exact absurd hh hne
    | cons c cs =>
      have hc : isDig c = true := hdig c (by simp [hh])
      have hcne : ¬ c = '-' := by
        intro hceq
        subst hceq
        simp [isDig] at hc
      simp only [parseInt, if_neg hcne]
      rw [← hh, parseNat_natDigits]
      omega

/-! Splitting the rendered spec recovers the rendered subranges. -/

lemma splitCommaL_no_comma (l : List Char) (h : ∀ c ∈ l, c ≠ ',') :
    splitCommaL l = [l] := by
  induction l with
  | nil => simp [splitCommaL]
  | cons c cs ih =>
    have hc : c ≠ ',' := h c (by simp)
    rw [splitCommaL, if_neg hc, ih (fun x hx => h x (by simp [hx]))]

lemma splitCommaL_append (l cs : List Char) (h : ∀ c ∈ l, c ≠ ',') :
    splitCommaL (l ++ ',' :: cs) = l :: splitCommaL cs := by
  induction l with
  | nil => simp [splitCommaL]
  | cons x xs ih =>
    have hx : x ≠ ',' := h x (by simp)
    rw [List.cons_append, splitCommaL, if_neg hx,
      ih (fun c hc => h c (by simp [hc]))]

lemma splitCommaL_ne_nil (cs : List Char) : splitCommaL cs ≠ [] := by
  cases cs with
  | nil => simp [splitCommaL]
  | cons c cs =>
    rw [splitCommaL]
    by_cases h : c = ','
    · simp [h]
    · simp only [h, if_false]
      cases splitCommaL cs <;> simp

lemma splitCommaL_joinComma (ls : List (List Char)) (hne : ls ≠ [])
    (h : ∀ l ∈ ls, ∀ c ∈ l, c ≠ ',') :
    splitCommaL (joinComma ls) = ls := by
  induction ls with
  | nil => exact absurd rfl hne
  | cons l rest ih =>
    cases rest with
    | nil =>
      exact splitCommaL_no_comma l (h l (by simp))
    | cons l2 rest2 =>
      rw [show joinComma (l :: l2 :: rest2) = l ++ ',' :: joinComma (l2 :: rest2) from rfl,
        splitCommaL_append l _ (h l (by simp)),
        ih (by simp) (fun x hx c hc => h x (by simp [hx]) c hc)]

/-! The rendered subrange text contains no comma. -/

lemma renderSubrange_no_comma (sr : Subrange) :
    ∀ c ∈ renderSubrange sr, c ≠ ',' := by
  intro c hc
  simp only [renderSubrange] at hc
  have hdig : ∀ x, isDig x = true → x ≠ ',' := by
    intro x hx hc2
    subst hc2
    simp [isDig] at hx
  rcases List.mem_append.mp hc with hm | hm
  · exact hdig c (natDigits_digits _ c hm)
  · match hs : sr.stop with
    | none => rw [hs] at hm; simp at hm
    | some e =>
      rw [hs] at hm
      simp only [List.mem_cons] at hm
      rcases hm with hm | hm
      · subst hm; decide
      · rcases List.mem_append.mp hm with hm2 | hm2
        · exact hdig c (natDigits_digits _ c hm2)
        · match hp : sr.step with
          | none => rw [hp] at hm2; simp at hm2
          | some p =>
            rw [hp] at hm2
            simp only [List.mem_cons] at hm2
            rcases hm2 with hm3 | hm3
            · subst hm3
              by_cases hb : p.1 <;> simp [hb] <;> decide
            · simp only [intDigits] at hm3
              by_cases hneg : p.2 < 0
              · simp only [hneg, if_true, List.mem_cons] at hm3
                rcases hm3 with hm4 | hm4
                · subst hm4; decide
                · exact hdig c (natDigits_digits _ c hm4)
              · simp only [hneg, if_false] at hm3
                exact hdig c (natDigits_digits _ c hm3)

lemma takeDigitsL_natDigits (n : Nat) (rest : List Char)
    (hrest : ∀ x, rest.head? = some x → isDig x = false) :
    takeDigitsL (natDigits n ++ rest) = (natDigits n, rest) :=
  takeDigitsL_exact (natDigits n) rest (natDigits_digits n) hrest

lemma takeDigitsL_natDigits_nil (n : Nat) :
    takeDigitsL (natDigits n) = (natDigits n, []) := by
  simpa using takeDigitsL_natDigits n [] (by simp)

lemma head_dash_not_dig (rest : List Char) :
    ∀ x, (('-' :: rest).head? = some x) → isDig x = false := by
  intro x hx
  simp at hx
  subst hx
  decide

lemma matchFrameItem_render (sr : Subrange) (hwf : sr.wf) :
    matchFrameItem (renderSubrange sr) = some (renderGroups sr, []) := by
  rcases hwf with ⟨hwf1, hwf2⟩
  match hstop : sr.stop with
  | none =>
    have hstep : sr.step = none := hwf1 hstop
    have hrender : renderSubrange sr = natDigits sr.start ++ [] := by
      simp [renderSubrange, hstop]
    rw [matchFrameItem, hrender, takeDigitsL_natDigits sr.start [] (by simp)]
    simp [natDigits_ne_nil, renderGroups, hstop, hstep]
  | some e =>
    match hstep : sr.step with
    | none =>
      have hrender : renderSubrange sr
          = natDigits sr.start ++ '-' :: (natDigits e ++ []) := by
        simp [renderSubrange, hstop, hstep]
      rw [matchFrameItem, hrender,
        takeDigitsL_natDigits sr.start _ (head_dash_not_dig _)]
      simp only [natDigits_ne_nil, if_false]
      simp only [if_true]
      rw [takeDigitsL_natDigits e [] (by simp)]
      simp [natDigits_ne_nil, renderGroups, hstop, hstep]
    | some p =>
      have hmark : ∀ x, (((if p.1 then ':' else 'x') :: intDigits p.2).head? = some x)
          → isDig x = false := by
        intro x hx
        simp at hx
        subst hx
        by_cases hb : p.1 <;> simp [hb] <;> decide
      have hrender : renderSubrange sr
          = natDigits sr.start
            ++ '-' :: (natDigits e ++ (if p.1 then ':' else 'x') :: intDigits p.2) := by
        simp [renderSubrange, hstop, hstep]
      rw [matchFrameItem, hrender,
        takeDigitsL_natDigits sr.start _ (head_dash_not_dig _)]
      simp only [natDigits_ne_nil, if_false]
      simp only [if_true]
      rw [takeDigitsL_natDigits e _ hmark]
      simp only [natDigits_ne_nil, if_false]
      rw [if_pos (by by_cases hb : p.1 <;> simp [hb])]
      by_cases hneg : p.2 < 0
      · have hid : intDigits p.2 = '-' :: natDigits p.2.natAbs := by
          simp [intDigits, hneg]
        rw [hid]
        simp only [if_true]
        rw [takeDigitsL_natDigits_nil p.2.natAbs]
        simp [natDigits_ne_nil, renderGroups, hstop, hstep, hid]
      · have hid : intDigits p.2 = natDigits p.2.toNat :=
          intDigits_nonneg p.2 (by omega)
        have hne := natDigits_ne_nil p.2.toNat
        cases hnd : natDigits p.2.toNat with
        | nil => exact absurd hnd hne
        | cons c0 cs0 =>
          have hc0 : isDig c0 = true := natDigits_digits p.2.toNat c0 (by simp [hnd])
          have hc0ne : ¬ c0 = '-' := by
            intro hx
            subst hx
            simp [isDig] at hc0
          rw [hid, hnd]
          simp only [if_neg hc0ne]
          rw [← hnd, takeDigitsL_natDigits_nil p.2.toNat]
          simp [hne, renderGroups, hstop, hstep, hid, hnd]

lemma itemScan_skip_all (cs : List Char) : ∀ k, cs.length ≤ k → itemScan cs k = [] := by
  induction cs with
  | nil => intro k _; cases k <;> simp [itemScan]
  | cons c cs ih =>
    intro k hk
    match k with
    | Nat.succ k0 =>
      simp only [itemScan]
      exact ih k0 (by simpa using hk)

lemma itemScan_render (sr : Subrange) (hwf : sr.wf) :
    itemScan (renderSubrange sr) 0 = [renderGroups sr] := by
  have hmi := matchFrameItem_render sr hwf
  have hne : renderSubrange sr ≠ [] := by
    simp only [renderSubrange]
    intro hx
    exact natDigits_ne_nil sr.start (List.append_eq_nil.mp hx).1
  cases hr : renderSubrange sr with
  | nil => exact absurd hr hne
  | cons c rest =>
    rw [hr] at hmi
    simp only [itemScan, hmi]
    rw [itemScan_skip_all rest _ (by simp)]

lemma pyRange_pos_unfold (s stop st : Int) (h : 0 < st) :
    pyRange s stop st = if s < stop then s :: pyRange (s + st) stop st else [] := by
  by_cases hlt : s < stop
  · simp only [pyRange, h, if_true, if_pos hlt, if_neg (by omega : ¬ stop ≤ s)]
    have hcount : ((stop - s - 1).toNat / st.toNat) =
        (if stop ≤ s + st then 0 else ((stop - (s + st) - 1).toNat / st.toNat) + 1) := by
      by_cases hle : stop ≤ s + st
      · rw [if_pos hle]
        exact Nat.div_eq_of_lt (by omega)
      · rw [if_neg hle, Nat.div_eq, if_pos (by constructor <;> omega)]
        congr 1
        congr 1
        omega
    rw [List.range_succ_eq_map]
    simp only [List.map_cons, List.map_map, hcount, Nat.cast_zero, zero_mul, add_zero]
    refine congrArg (List.cons s) (List.map_congr_left ?_)
    intro a _
    simp only [Function.comp]
    push_cast
    ring
  · simp only [pyRange, h, if_true, if_pos (by omega : stop ≤ s), if_neg hlt]
    simp

lemma pyRange_neg_unfold (s stop st : Int) (h : st < 0) :
    pyRange s stop st = if stop < s then s :: pyRange (s + st) stop st else [] := by
  by_cases hlt : stop < s
  · simp only [pyRange, if_neg (by omega : ¬ 0 < st), h, if_true, if_pos hlt,
      if_neg (by omega : ¬ s ≤ stop)]
    have hcount : ((s - stop - 1).toNat / (-st).toNat) =
        (if s + st ≤ stop then 0 else (((s + st) - stop - 1).toNat / (-st).toNat) + 1) := by
      by_cases hle : s + st ≤ stop
      · rw [if_pos hle]
        exact Nat.div_eq_of_lt (by omega)
      · rw [if_neg hle, Nat.div_eq, if_pos (by constructor <;> omega)]
        congr 1
        congr 1
        omega
    rw [List.range_succ_eq_map]
    simp only [List.map_cons, List.map_map, hcount, Nat.cast_zero, zero_mul, add_zero]
    refine congrArg (List.cons s) (List.map_congr_left ?_)
    intro a _
    simp only [Function.comp]
    push_cast
    ring
  · simp only [pyRange, if_neg (by omega : ¬ 0 < st), h, if_true,
      if_pos (by omega : s ≤ stop), if_neg hlt]
    simp

lemma pyRange_eq_srUp (n : Nat) : ∀ (s e st : Int), (e + 1 - s).toNat ≤ n → 0 < st →
    pyRange s (e + 1) st = srUp s e st.toNat := by
  induction n with
  | zero =>
    intro s e st hm h
    rw [pyRange_pos_unfold s (e + 1) st h, if_neg (by omega), srUp,
      dif_neg (by intro hx; omega)]
  | succ n ih =>
    intro s e st hm h
    rw [pyRange_pos_unfold s (e + 1) st h, srUp]
    by_cases hle : s ≤ e
    · rw [if_pos (by omega), dif_pos ⟨by omega, hle⟩]
      refine congrArg (List.cons s) ?_
      rw [show (st.toNat : Int) = st by omega]
      exact ih (s + st) e st (by omega) h
    · rw [if_neg (by omega), dif_neg (by intro hx; exact hle hx.2)]

lemma pyRange_eq_srDown (n : Nat) : ∀ (s e st : Int), (s + 1 - e).toNat ≤ n → st < 0 →
    pyRange s (e - 1) st = srDown s e (-st).toNat := by
  induction n with
  | zero =>
    intro s e st hm h
    rw [pyRange_neg_unfold s (e - 1) st h, if_neg (by omega), srDown,
      dif_neg (by intro hx; omega)]
  | succ n ih =>
    intro s e st hm h
    rw [pyRange_neg_unfold s (e - 1) st h, srDown]
    by_cases hle : e ≤ s
    · rw [if_pos (by omega), dif_pos ⟨by omega, hle⟩]
      refine congrArg (List.cons s) ?_
      rw [show s + st = s - (-st).toNat by omega]
      exact ih (s - (-st).toNat) e st (by omega) h
    · rw [if_neg (by omega), dif_neg (by intro hx; exact hle hx.2)]

lemma itemFrames_render (sr : Subrange) (hwf : sr.wf) :
    itemFrames (renderGroups sr) = some (srFrames sr) := by
  have hwf2 := hwf.2
  match hstop : sr.stop with
  | none =>
    have hstep := hwf.1 hstop
    simp only [itemFrames, renderGroups, srFrames, hstop, hstep, Option.map_none',
      parseNat_natDigits]
    rw [if_neg (by omega)]
    simp only [if_pos (by omega : (0 : Int) < 1)]
    rw [pyRange_pos_unfold _ _ _ (by omega), if_pos (by omega),
      pyRange_pos_unfold _ _ _ (by omega), if_neg (by omega)]
  | some e =>
    match hstep : sr.step with
    | none =>
      simp only [itemFrames, renderGroups, srFrames, hstop, hstep, Option.map_none',
        Option.map_some', Option.getD_some, parseNat_natDigits]
      rw [if_neg (by omega)]
      simp only [if_pos (by omega : (0 : Int) < 1)]
      rw [pyRange_eq_srUp ((e + 1 - sr.start : Int)).toNat (sr.start : Int) (e : Int) 1
        (by omega) (by omega)]
      rfl
    | some p =>
      have hp2 : p.2 ≠ 0 := by
        rw [hstep] at hwf2
        simpa using hwf2
      simp only [itemFrames, renderGroups, srFrames, hstop, hstep, Option.map_some',
        Option.getD_some, parseNat_natDigits, parseInt_intDigits]
      rw [if_neg hp2]
      by_cases hpos : 0 < p.2
      · simp only [if_pos hpos]
        exact congrArg some (pyRange_eq_srUp ((e + 1 - sr.start : Int)).toNat
          (sr.start : Int) (e : Int) p.2 (by omega) hpos)
      · simp only [if_neg hpos]
        have hneg : p.2 < 0 := by omega
        have : ((e : Int) + (-1)) = (e : Int) - 1 := by ring
        rw [this]
        exact congrArg some (pyRange_eq_srDown ((sr.start + 1 - e : Int)).toNat
          (sr.start : Int) (e : Int) p.2 (by omega) hneg)

lemma flatMap_itemScan (srs : List Subrange) (hwf : ∀ sr ∈ srs, sr.wf) :
    (srs.map renderSubrange).flatMap (fun sub => itemScan sub 0)
      = srs.map renderGroups := by
  induction srs with
  | nil => rfl
  | cons a rest ih =>
    simp only [List.map_cons, List.flatMap_cons, itemScan_render a (hwf a (by simp)),
      ih (fun sr hsr => hwf sr (by simp [hsr]))]
    rfl

lemma collectFrames_render (srs : List Subrange) (hwf : ∀ sr ∈ srs, sr.wf) :
    ∀ acc : List Int,
      collectFrames (srs.map renderGroups) acc
        = some (acc ++ srs.flatMap srFrames) := by
  induction srs with
  | nil =>
    intro acc
    simp [collectFrames]
  | cons a rest ih =>
    intro acc
    simp only [List.map_cons, collectFrames, itemFrames_render a (hwf a (by simp))]
    rw [ih (fun sr hsr => hwf sr (by simp [hsr])) (acc ++ srFrames a)]
    simp [List.flatMap_cons, List.append_assoc]

/-- C2: on every valid frame-range spec (a comma join of well-formed
subranges rendered with decimal numerals), `expand_frame_spec` splits on
commas, iterates each subrange from start to end inclusive by its step
(default 1, descending for a negative step), unions the subranges, and
returns the sorted duplicate-free integers; in particular
`expand("1-5") = [1..5]`, `expand("1-5x2") = [1,3,5]`,
`expand("5-1x-1")` is the set `{5,4,3,2,1}` sorted, and
`expand("1-5,8,10-12") = [1,2,3,4,5,8,10,11,12]`. -/
theorem c2_expand_frame_spec_valid (srs : List Subrange)
    (hwf : ∀ sr ∈ srs, sr.wf) :
    expand_frame_spec (renderSpec srs) = some (dedupSort (srs.flatMap srFrames))
    ∧ expand_frame_spec "1-5" = some [1, 2, 3, 4, 5]
    ∧ expand_frame_spec "1-5x2" = some [1, 3, 5]
    ∧ expand_frame_spec "5-1x-1" = some (dedupSort [5, 4, 3, 2, 1])
    ∧ expand_frame_spec "1-5,8,10-12" = some [1, 2, 3, 4, 5, 8, 10, 11, 12] := by
  refine ⟨?_, by decide, by decide, by decide, by decide⟩
  cases hsrs : srs with
  | nil => decide
  | cons a rest =>
    rw [← hsrs]
    have hne : srs ≠ [] := by rw [hsrs]; simp
    have hsplit : splitCommaL (renderSpec srs).data = srs.map renderSubrange := by
      rw [show (renderSpec srs).data = joinComma (srs.map renderSubrange) from rfl]
      exact splitCommaL_joinComma _ (by simpa using hne)
        (fun l hl c hc => by
          rcases List.mem_map.mp hl with ⟨sr, _, hrl⟩
          exact renderSubrange_no_comma sr c (hrl ▸ hc))
    unfold expand_frame_spec
    rw [hsplit, flatMap_itemScan srs hwf, collectFrames_render srs hwf []]
    simp

/-- Witness for C2 at the concrete valid spec `"1-5x2,8,10-12"`. -/
theorem c2_expand_frame_spec_valid_witness :
    expand_frame_spec (renderSpec
        ([⟨1, some 5, some (false, 2)⟩, ⟨8, none, none⟩, ⟨10, some 12, none⟩] :
          List Subrange))
      = some (dedupSort (([⟨1, some 5, some (false, 2)⟩, ⟨8, none, none⟩,
          ⟨10, some 12, none⟩] : List Subrange).flatMap srFrames)) :=
  (c2_expand_frame_spec_valid _ (by decide)).1

/-! ## Claim C6: `find_frame_spec` picks the latest-starting match -/

lemma fsTryStart_pos (atStart : Bool) (c : Char) (cs : List Char) (n : Nat)
    (h : fsTryStart atStart c cs = some n) : 1 ≤ n := by
  unfold fsTryStart at h
  by_cases h1 : isDig c
  · rw [if_pos h1] at h
    rcases Option.map_eq_some'.mp h with ⟨m, _, hm⟩
    omega
  · rw [if_neg h1] at h
    by_cases h2 : c = ',' ∧ atStart = true
    · rw [if_pos h2] at h
      rcases Option.map_eq_some'.mp h with ⟨m, _, hm⟩
      omega
    · rw [if_neg h2] at h
      exact Option.noConfusion h

lemma fsScan_chain (cs : List Char) : ∀ (pos : Nat) (prev : Option Char) (skip : Nat),
    (∀ p ∈ fsScan cs pos prev skip, pos + skip ≤ p.1 ∧ p.1 < p.2)
    ∧ (fsScan cs pos prev skip).Pairwise (fun p q => p.2 ≤ q.1) := by
  induction cs with
  | nil =>
    intro pos prev skip
    simp [fsScan]
  | cons c rest ih =>
    intro pos prev skip
    match skip with
    | Nat.succ k =>
      rw [show fsScan (c :: rest) pos prev (Nat.succ k)
          = fsScan rest (pos + 1) (some c) k from rfl]
      refine ⟨fun p hp => ?_, (ih (pos + 1) (some c) k).2⟩
      have := (ih (pos + 1) (some c) k).1 p hp
      omega
    | 0 =>
      simp only [fsScan]
      by_cases hlb : prev = none ∨ prev = some '.'
      · rw [if_pos hlb]
        cases hts : fsTryStart (prev = none) c rest with
        | none =>
          refine ⟨fun p hp => ?_, (ih (pos + 1) (some c) 0).2⟩
          have := (ih (pos + 1) (some c) 0).1 p hp
          omega
        | some n =>
          have hn : 1 ≤ n := fsTryStart_pos _ _ _ _ hts
          have hrest := ih (pos + 1) (some c) (n - 1)
          refine ⟨?_, ?_⟩
          · intro p hp
            rcases List.mem_cons.mp hp with hp1 | hp2
            · subst hp1
              omega
            · have := hrest.1 p hp2
              omega
          · refine List.Pairwise.cons ?_ hrest.2
            intro q hq
            have := hrest.1 q hq
            omega
      · rw [if_neg hlb]
        refine ⟨fun p hp => ?_, (ih (pos + 1) (some c) 0).2⟩
        have := (ih (pos + 1) (some c) 0).1 p hp
        omega

lemma foldl_updFalsyMax_acc (f : Nat × Nat → Nat) (l : List (Nat × Nat)) :
    ∀ a : Nat, l.Pairwise (fun p q => f p < f q) → (∀ q ∈ l, a < f q) →
      l.foldl (fun acc m => updFalsyMax acc (f m)) (some a)
        = some (((l.getLast?).map f).getD a) := by
  induction l with
  | nil =>
    intro a _ _
    simp
  | cons q rest ih =>
    intro a hpw hgt
    have hq : a < f q := hgt q (by simp)
    have hstep : updFalsyMax (some a) (f q) = some (f q) := by
      unfold updFalsyMax
      by_cases ha : a ≠ 0
      · simp [ha, Nat.max_eq_right (le_of_lt hq)]
      · simp [ha]
    rw [List.foldl_cons, hstep,
      ih (f q) (List.Pairwise.sublist (by simp) hpw)
        (fun r hr => (List.pairwise_cons.mp hpw).1 r hr)]
    cases hrest : rest with
    | nil => simp
    | cons r2 rest2 =>
      obtain ⟨m, hm⟩ := Option.isSome_iff_exists.mp
        (List.getLast?_isSome.mpr (by simp : (r2 :: rest2) ≠ []))
      rw [List.getLast?_cons_cons, hm]
      simp

lemma foldl_updFalsyMax_none (f : Nat × Nat → Nat) (l : List (Nat × Nat))
    (hpw : l.Pairwise (fun p q => f p < f q)) :
    l.foldl (fun acc m => updFalsyMax acc (f m)) none = (l.getLast?).map f := by
  cases l with
  | nil => simp
  | cons p rest =>
    rw [List.foldl_cons, show updFalsyMax none (f p) = some (f p) from rfl,
      foldl_updFalsyMax_acc f rest (f p)
        (List.Pairwise.sublist (by simp) hpw)
        (fun r hr => (List.pairwise_cons.mp hpw).1 r hr)]
    cases hrest : rest with
    | nil => simp
    | cons r2 rest2 =>
      obtain ⟨m, hm⟩ := Option.isSome_iff_exists.mp
        (List.getLast?_isSome.mpr (by simp : (r2 :: rest2) ≠ []))
      rw [List.getLast?_cons_cons, hm]
      simp

lemma chain_last_max (l : List (Nat × Nat)) (h1 : ∀ p ∈ l, p.1 < p.2)
    (h2 : l.Pairwise (fun p q => p.2 ≤ q.1)) (m : Nat × Nat)
    (hm : l.getLast? = some m) :
    ∀ q ∈ l, q.1 ≤ m.1 ∧ (q.1 = m.1 → q.2 ≤ m.2) := by
  induction l with
  | nil => simp at hm
  | cons p rest ih =>
    intro q hq
    cases hrest : rest with
    | nil =>
      subst hrest
      simp at hm hq
      subst hm
      subst hq
      simp
    | cons r2 rest2 =>
      subst hrest
      rw [List.getLast?_cons_cons] at hm
      have hmem : m ∈ r2 :: rest2 := by
        have := List.getLast?_eq_getLast (r2 :: rest2) (by simp)
        rw [this] at hm
        simp at hm
        rw [← hm]
        exact List.getLast_mem _
      rcases List.mem_cons.mp hq with hq1 | hq2
      · subst hq1
        have hple : q.2 ≤ m.1 := by
          have := (List.pairwise_cons.mp h2).1 m hmem
          exact this
        have hq12 : q.1 < q.2 := h1 q (by simp)
        constructor
        · omega
        · intro heq
          omega
      · exact ih (fun x hx => h1 x (by simp [hx]))
          (List.Pairwise.sublist (by simp) h2) hm q hq2

/-- C6: for every input string, `find_frame_spec` returns the triple whose
middle component is the finditer candidate with the maximum start
position — ties broken by maximum end position (with the scanner's
non-overlapping, strictly advancing matches, that is the last match) —
together with the text before and after it; and when no candidate exists
it returns the whole input as the first component with empty spec and
suffix parts. -/
theorem c6_find_frame_spec_last_wins (s : String) :
    (pyFinditerFspec s = [] ∧ find_frame_spec s = (s, "", ""))
    ∨ ∃ m ∈ pyFinditerFspec s,
        (∀ m2 ∈ pyFinditerFspec s, m2.1 ≤ m.1 ∧ (m2.1 = m.1 → m2.2 ≤ m.2))
        ∧ find_frame_spec s = (strTake s m.1, strSlice s m.1 m.2, strDrop s m.2) := by
  have hchain := fsScan_chain s.data 0 none 0
  have h1 : ∀ p ∈ pyFinditerFspec s, p.1 < p.2 := fun p hp => (hchain.1 p hp).2
  have h2 : (pyFinditerFspec s).Pairwise (fun p q => p.2 ≤ q.1) := hchain.2
  cases hms : pyFinditerFspec s with
  | nil =>
    left
    refine ⟨rfl, ?_⟩
    unfold find_frame_spec
    rw [hms]
    rfl
  | cons p rest =>
    right
    rw [hms] at h1 h2
    obtain ⟨m, hm⟩ := Option.isSome_iff_exists.mp
      (List.getLast?_isSome.mpr (by simp : (p :: rest) ≠ []))
    have hmem : m ∈ p :: rest := by
      have := List.getLast?_eq_getLast (p :: rest) (by simp)
      rw [this] at hm
      simp at hm
      rw [← hm]
      exact List.getLast_mem _
    have hmax := chain_last_max (p :: rest) h1 h2 m hm
    have hmono1 : (p :: rest).Pairwise (fun a b => a.1 < b.1) := by
      refine List.Pairwise.imp_of_mem ?_ h2
      intro a b ha hb hab
      have := h1 a ha
      omega
    have hmono2 : (p :: rest).Pairwise (fun a b => a.2 < b.2) := by
      refine List.Pairwise.imp_of_mem ?_ h2
      intro a b ha hb hab
      have := h1 b hb
      omega
    refine ⟨m, hmem, fun m2 hm2 => hmax m2 (hms ▸ hm2), ?_⟩
    unfold find_frame_spec
    rw [hms]
    simp only [foldl_updFalsyMax_none Prod.fst (p :: rest) hmono1,
      foldl_updFalsyMax_none Prod.snd (p :: rest) hmono2, hm, Option.map_some']

/-! ## Claim C7: matching is start-anchored, not full-name -/

/-- C7 counterexample: with the pattern `shot.1-1.exr` (frame 1, padding
4) and a directory whose only entry strictly extends the expected
filename `shot.0001.exr` by a trailing `.bak`, the entry is matched and
returned — `re.match` anchors at the start only, so the composed pattern
is never required to cover the entire entry name. -/
theorem c7_counterexample_extension_matched :
    expand_files "/tmp" "shot.1-1.exr" ["shot.0001.exr.bak"] (some 4) none true false
      = some (["/tmp/shot.0001.exr.bak"], [])
    ∧ ("shot.0001.exr.bak" : String) ≠ "shot.0001.exr" := by
  exact ⟨by decide, by decide⟩

lemma matchAtomsF_lits (xs : List Char) :
    ∀ (cs : List Char) (f : Nat), xs.length + cs.length < f →
      matchAtomsF f (xs.map RAtom.lit) cs = xs.isPrefixOf cs := by
  induction xs with
  | nil =>
    intro cs f hf
    match f with
    | g + 1 => simp [matchAtomsF, List.isPrefixOf]
  | cons x xs ih =>
    intro cs f hf
    match f with
    | g + 1 =>
      cases cs with
      | nil => simp [matchAtomsF, List.isPrefixOf]
      | cons d ds =>
        simp only [List.map_cons, matchAtomsF, List.isPrefixOf,
          ih ds g (by simp at hf; omega)]
        by_cases hxd : x = d
        · simp [hxd]
        · simp [hxd, beq_eq_false_iff_ne.mpr hxd]

lemma matchAtoms_lits (xs cs : List Char) :
    matchAtoms (xs.map RAtom.lit) cs = xs.isPrefixOf cs := by
  unfold matchAtoms
  exact matchAtomsF_lits xs cs _ (by simp; omega)

lemma insSortIns_mem (le : α → α → Bool) (x y : α) (l : List α) :
    y ∈ insSort.insSortIns le x l ↔ y = x ∨ y ∈ l := by
  induction l with
  | nil => simp [insSort.insSortIns]
  | cons z zs ih =>
    by_cases h : le x z
    · simp [insSort.insSortIns, h]
    · simp only [insSort.insSortIns, h, Bool.false_eq_true, if_false, List.mem_cons, ih]
      tauto

lemma insSort_mem (le : α → α → Bool) (x : α) (l : List α) :
    x ∈ insSort le l ↔ x ∈ l := by
  induction l with
  | nil => simp [insSort]
  | cons z zs ih =>
    simp only [insSort, insSortIns_mem, List.mem_cons, ih]

/-- C7 amended: with an expanded frame set, a directory entry is reported
as matched for a frame iff the composed pattern matches a *leading
segment* of the entry name (Python `re.match` anchors at the start only,
not at the end); consequently an entry whose name strictly extends an
expected filename is matched too.  Stated for patterns whose prefix and
suffix compile to pure literals and an explicit non-zero padding: an
entry of the listing is in the output exactly when, for some expanded
frame, the expected name `prefix ++ zero-padded frame ++ suffix` is a
string prefix of the entry name. -/
theorem c7_amended_matched_iff_lead_literal
    (parent fname : String) (files : List String) (p : Nat) (hp : p ≠ 0)
    (uid : Option String) (strict mhl : Bool)
    (pre fspec suf : String)
    (hfind : find_frame_spec fname = (pre, fspec, suf))
    (hpre : seq_and_udim_ids_to_regex pre mhl uid strict = escapeLits pre)
    (hsuf : seq_and_udim_ids_to_regex suf mhl uid strict = escapeLits suf)
    (frames : List Int)
    (hfr : (if fspec = "" ∨ suf = "" then some ([] : List Int)
            else expand_frame_spec fspec) = some frames)
    (hfne : frames ≠ [])
    (out miss : List String)
    (hout : expand_files parent fname files (some p) uid strict mhl
      = some (out, miss)) :
    ∀ e, e ∈ out ↔ ∃ n ∈ files, e = pyJoin parent n ∧
      ∃ fr ∈ frames,
        (pre.data ++ rjust0 (calc_padding frames fspec (some p)) (intDigits fr)
          ++ suf.data).isPrefixOf n.data = true := by
  have hpat : ∀ (fr : Int) (n : String),
      matchAtoms (seq_and_udim_ids_to_regex pre mhl uid strict
          ++ framePat (some p) (calc_padding frames fspec (some p)) fr
          ++ seq_and_udim_ids_to_regex suf mhl uid strict) n.data
        = (pre.data ++ rjust0 (calc_padding frames fspec (some p)) (intDigits fr)
            ++ suf.data).isPrefixOf n.data := by
    intro fr n
    rw [hpre, hsuf]
    unfold framePat
    rw [if_neg (by simp [hp])]
    show matchAtoms ((pre.data.map RAtom.lit)
        ++ ((rjust0 (calc_padding frames fspec (some p)) (intDigits fr)).map RAtom.lit)
        ++ (suf.data.map RAtom.lit)) n.data = _
    rw [← List.map_append, ← List.map_append]
    exact matchAtoms_lits _ _
  unfold expand_files at hout
  rw [hfind] at hout
  simp only [] at hout
  by_cases hA : fspec = "" ∨ suf = ""
  · rw [if_pos hA] at hfr
    simp only [Option.some.injEq] at hfr
    exact absurd hfr.symm hfne
  rw [if_neg hA] at hout hfr
  rw [hfr] at hout
  simp only [Option.bind_eq_bind, Option.some_bind, hfne, ne_eq,
    not_false_eq_true, if_true, Option.pure_def, Option.some.injEq,
    Prod.mk.injEq] at hout
  rcases hout with ⟨hout1, _⟩
  intro e
  rw [← hout1, insSort_mem]
  simp only [List.mem_flatMap, List.mem_map, List.mem_filter, hpat]
  constructor
  · rintro ⟨fr, hfrm, n, ⟨hn, hm⟩, he⟩
    exact ⟨n, hn, he.symm, fr, hfrm, hm⟩
  · rintro ⟨n, hn, he, fr, hfrm, hm⟩
    exact ⟨fr, hfrm, n, ⟨hn, hm⟩, he.symm⟩

/-- Witness for the amended C7 theorem at the counterexample input: the
listing's single entry strictly extends the expected `shot.0001.exr` and
is matched because that expected name is a leading segment of it. -/
theorem c7_amended_witness :
    ("/tmp/shot.0001.exr.bak" ∈ (["/tmp/shot.0001.exr.bak"] : List String))
    ↔ ∃ n ∈ (["shot.0001.exr.bak"] : List String),
        "/tmp/shot.0001.exr.bak" = pyJoin "/tmp" n ∧
        ∃ fr ∈ ([1] : List Int),
          ("shot.".data ++ rjust0 (calc_padding [1] "1-1" (some 4)) (intDigits fr)
            ++ ".exr".data).isPrefixOf n.data = true :=
  c7_amended_matched_iff_lead_literal "/tmp" "shot.1-1.exr" ["shot.0001.exr.bak"]
    4 (by decide) none true false "shot." "1-1" ".exr" (by decide) (by decide)
    (by decide) [1] (by decide) (by decide) ["/tmp/shot.0001.exr.bak"] []
    (by decide) "/tmp/shot.0001.exr.bak"

/-! ## Claims C1 and C9: deduplicated copies into a store

Path-resolution lemmas: following the relative link target computed by
`pyRelpath` from the publish path's parent lands on the store file, for
paths whose components are free of `.` and `..`. -/

lemma normFold_clean (xs : List String) :
    ∀ acc, (∀ x ∈ xs, x ≠ "." ∧ x ≠ "..") →
      xs.foldl normSeg acc = acc ++ xs := by
  induction xs with
  | nil => intro acc _; simp
  | cons x xs ih =>
    intro acc h
    have hx := h x (by simp)
    rw [List.foldl_cons, show normSeg acc x = acc ++ [x] from by
        simp [normSeg, hx.1, hx.2],
      ih (acc ++ [x]) (fun y hy => h y (by simp [hy]))]
    simp

lemma normFold_dotdot (n : Nat) : ∀ (A B : List String), B.length = n →
    (List.replicate n "..").foldl normSeg (A ++ B) = A := by
  induction n with
  | zero =>
    intro A B hB
    have : B = [] := List.eq_nil_of_length_eq_zero hB
    subst this
    simp
  | succ n ih =>
    intro A B hB
    have hBne : B ≠ [] := by
      intro h
      subst h
      simp at hB
    rw [List.replicate_succ, List.foldl_cons,
      show normSeg (A ++ B) ".." = A ++ B.dropLast from by
        simp [normSeg, List.dropLast_append_of_ne_nil A hBne]]
    exact ih A B.dropLast (by rw [List.length_dropLast]; omega)

lemma commonPreLen_take : ∀ (D S : List String),
    D.take (commonPreLen D S) = S.take (commonPreLen D S) := by
  intro D
  induction D with
  | nil => intro S; simp [commonPreLen]
  | cons d ds ih =>
    intro S
    cases S with
    | nil => simp [commonPreLen]
    | cons s ss =>
      by_cases h : d = s
      · subst h
        simp [commonPreLen, List.take_succ_cons, ih ss]
      · simp [commonPreLen, h]

lemma commonPreLen_le_left : ∀ (D S : List String), commonPreLen D S ≤ D.length := by
  intro D
  induction D with
  | nil => intro S; simp [commonPreLen]
  | cons d ds ih =>
    intro S
    cases S with
    | nil => simp [commonPreLen]
    | cons s ss =>
      by_cases h : d = s
      · subst h
        simpa [commonPreLen] using ih ss
      · simp [commonPreLen, h]

lemma commonPreLen_le_right : ∀ (D S : List String), commonPreLen D S ≤ S.length := by
  intro D
  induction D with
  | nil => intro S; simp [commonPreLen]
  | cons d ds ih =>
    intro S
    cases S with
    | nil => simp [commonPreLen]
    | cons s ss =>
      by_cases h : d = s
      · subst h
        simpa [commonPreLen] using ih ss
      · simp [commonPreLen, h]

lemma normFold_dotdot_take (S : List String) (c : Nat) :
    List.foldl normSeg S (List.replicate (S.length - c) "..") = S.take c := by
  have h := normFold_dotdot (S.length - c) (S.take c) (S.drop c)
    (by rw [List.length_drop])
  by_cases hc : c ≤ S.length
  · rw [List.take_append_drop] at h
    exact h
  · rw [show S.length - c = 0 from by omega]
    simp [List.take_of_length_le (by omega : S.length ≤ c)]

lemma normPath_resolves (D S : List String) (nm : String)
    (hD : ∀ x ∈ D, x ≠ "." ∧ x ≠ "..")
    (hS : ∀ x ∈ S, x ≠ "." ∧ x ≠ "..")
    (hnm : nm ≠ "." ∧ nm ≠ "..") :
    normPath (S ++ (pyRelpath D S ++ [nm])) = D ++ [nm] := by
  have hcl : commonPreLen D S ≤ D.length := commonPreLen_le_left D S
  have hcr : commonPreLen D S ≤ S.length := commonPreLen_le_right D S
  have hnmc : List.foldl normSeg (D.take (commonPreLen D S) ++ D.drop (commonPreLen D S)) [nm]
      = D ++ [nm] := by
    rw [List.take_append_drop]
    simp [normSeg, hnm.1, hnm.2]
  by_cases hrel : (List.replicate (S.length - commonPreLen D S) ".." ++
      D.drop (commonPreLen D S)) = []
  · have hrp : pyRelpath D S = ["."] := by
      simp only [pyRelpath]
      rw [if_pos hrel]
    rcases List.append_eq_nil.mp hrel with ⟨hrep, hdrop⟩
    have hSlen : commonPreLen D S = S.length := by
      have := congrArg List.length hrep
      simp at this
      omega
    have hDlen : D.length ≤ commonPreLen D S := by
      have := congrArg List.length hdrop
      simp at this
      omega
    have hDS : D = S := by
      have h1 := commonPreLen_take D S
      rw [List.take_of_length_le (by omega), List.take_of_length_le (by omega)] at h1
      exact h1
    rw [hrp]
    unfold normPath
    rw [List.foldl_append, normFold_clean S [] hS]
    simp only [List.nil_append]
    rw [show List.foldl normSeg S (["."] ++ [nm]) = S ++ [nm] from by
      simp [normSeg, hnm.1, hnm.2]]
    rw [hDS]
  · have hrp : pyRelpath D S
        = List.replicate (S.length - commonPreLen D S) ".."
          ++ D.drop (commonPreLen D S) := by
      simp only [pyRelpath]
      rw [if_neg hrel]
    rw [hrp]
    unfold normPath
    rw [List.foldl_append, List.foldl_append, normFold_clean S [] hS]
    simp only [List.nil_append]
    rw [List.foldl_append, normFold_dotdot_take S (commonPreLen D S),
      normFold_clean (D.drop (commonPreLen D S)) _ (fun y hy =>
        hD y (List.mem_of_mem_drop hy)),
      ← commonPreLen_take D S, hnmc]

lemma copy_into_empty (c : List Nat) (n : String) (d data_d : List String)
    (pre : String) (nd : Nat)
    (hguard : data_d.isPrefixOf d = false) :
    copy_file_deduplicated c n d data_d (files_keyed_by_size data_d ⟨[], []⟩)
        pre nd ⟨[], []⟩
      = some (data_d ++ [firstVerName n pre nd],
          ⟨[⟨firstVerName n pre nd, c⟩],
           [(d, pyRelpath data_d d.dropLast ++ [firstVerName n pre nd])]⟩) := by
  simp [copy_file_deduplicated, files_keyed_by_size, dictGet, findMd5Match,
    copy_and_add_ver_num, findFreeVer, firstVerName, hguard, List.range_succ]

lemma copy_match_single (c : List Nat) (n : String) (d data_d : List String)
    (pre : String) (nd : Nat) (nm : String)
    (links : List (List String × List String))
    (hguard : data_d.isPrefixOf d = false) :
    copy_file_deduplicated c n d data_d
        (files_keyed_by_size data_d ⟨[⟨nm, c⟩], links⟩) pre nd ⟨[⟨nm, c⟩], links⟩
      = some (data_d ++ [nm],
          ⟨[⟨nm, c⟩],
           (links.filter (fun e => e.1 ≠ d))
             ++ [(d, pyRelpath data_d d.dropLast ++ [nm])]⟩) := by
  simp [copy_file_deduplicated, files_keyed_by_size, sizeIdxAdd, dictGet,
    findMd5Match, contentAt, hguard, List.dropLast_concat, List.getLast?_concat]

lemma firstVerName_ne_dots (n pre : String) (nd : Nat) :
    firstVerName n pre nd ≠ "." ∧ firstVerName n pre nd ≠ ".." := by
  have h1 : '1' ∈ (firstVerName n pre nd).data := by
    unfold firstVerName verName
    rw [String.data_append, String.data_append, String.data_append,
      String.data_append]
    refine List.mem_append.mpr (Or.inl (List.mem_append.mpr (Or.inr ?_)))
    rw [show (⟨rjust0 nd (natDigits 1)⟩ : String).data = rjust0 nd (natDigits 1)
      from rfl]
    rw [show natDigits 1 = ['1'] from rfl]
    unfold rjust0
    exact List.mem_append.mpr (Or.inr (by simp))
  constructor
  · intro h
    rw [h] at h1
    simp at h1
  · intro h
    rw [h] at h1
    simp at h1

/-- C1: copying two byte-identical source files with different names and
different publish paths into an initially empty store — rebuilding the
size index from the store before each call — leaves exactly one physical
file in the store directory, both calls return that file's path, and both
publish paths are symlinks resolving to that one stored file. -/
theorem c1_dedup_identical_pair (c : List Nat) (n1 n2 : String)
    (d1 d2 data_d : List String) (pre : String) (nd : Nat)
    (hn : n1 ≠ n2) (hd : d1 ≠ d2)
    (hg1 : data_d.isPrefixOf d1 = false) (hg2 : data_d.isPrefixOf d2 = false)
    (hD : ∀ x ∈ data_d, x ≠ "." ∧ x ≠ "..")
    (hS1 : ∀ x ∈ d1.dropLast, x ≠ "." ∧ x ≠ "..")
    (hS2 : ∀ x ∈ d2.dropLast, x ≠ "." ∧ x ≠ "..") :
    ∃ (nm : String) (fs1 fs2 : FS),
      copy_file_deduplicated c n1 d1 data_d (files_keyed_by_size data_d ⟨[], []⟩)
          pre nd ⟨[], []⟩ = some (data_d ++ [nm], fs1)
      ∧ copy_file_deduplicated c n2 d2 data_d (files_keyed_by_size data_d fs1)
          pre nd fs1 = some (data_d ++ [nm], fs2)
      ∧ fs2.store.map (·.name) = [nm]
      ∧ resolveLink fs2 d1 = some (data_d ++ [nm])
      ∧ resolveLink fs2 d2 = some (data_d ++ [nm]) := by
  have hnm := firstVerName_ne_dots n1 pre nd
  refine ⟨firstVerName n1 pre nd,
    ⟨[⟨firstVerName n1 pre nd, c⟩],
     [(d1, pyRelpath data_d d1.dropLast ++ [firstVerName n1 pre nd])]⟩,
    ⟨[⟨firstVerName n1 pre nd, c⟩],
     [(d1, pyRelpath data_d d1.dropLast ++ [firstVerName n1 pre nd]),
      (d2, pyRelpath data_d d2.dropLast ++ [firstVerName n1 pre nd])]⟩,
    copy_into_empty c n1 d1 data_d pre nd hg1, ?_, by simp, ?_, ?_⟩
  · rw [copy_match_single c n2 d2 data_d pre nd (firstVerName n1 pre nd) _ hg2]
    simp [List.filter_cons, hd]
  · simp only [resolveLink, List.find?_cons, decide_True, decide_true_eq_true]
    simp
    exact normPath_resolves data_d d1.dropLast (firstVerName n1 pre nd) hD hS1 hnm
  · simp [resolveLink, hd]
    exact normPath_resolves data_d d2.dropLast (firstVerName n1 pre nd) hD hS2 hnm

/-- Witness for C1 at concrete paths: two identical one-byte sources
published to different paths land on one stored file. -/
theorem c1_dedup_identical_pair_witness :
    ∃ (nm : String) (fs1 fs2 : FS),
      copy_file_deduplicated [7] "a.exr" ["pub", "a.exr"] ["store"]
          (files_keyed_by_size ["store"] ⟨[], []⟩) "v" 4 ⟨[], []⟩
        = some (["store"] ++ [nm], fs1)
      ∧ copy_file_deduplicated [7] "b.exr" ["pub", "b.exr"] ["store"]
          (files_keyed_by_size ["store"] fs1) "v" 4 fs1
        = some (["store"] ++ [nm], fs2)
      ∧ fs2.store.map (·.name) = [nm]
      ∧ resolveLink fs2 ["pub", "a.exr"] = some (["store"] ++ [nm])
      ∧ resolveLink fs2 ["pub", "b.exr"] = some (["store"] ++ [nm]) :=
  c1_dedup_identical_pair [7] "a.exr" "b.exr" ["pub", "a.exr"] ["pub", "b.exr"]
    ["store"] "v" 4 (by decide) (by decide) (by decide) (by decide)
    (by decide) (by decide) (by decide)

/-- C9: invoking `copy_file_deduplicated` twice with identical source
content and the same publish path, rebuilding the size index from the
store before each call, returns the same canonical stored path both
times and leaves the store with the single original copy. -/
theorem c9_dedup_idempotent (c : List Nat) (n : String) (d data_d : List String)
    (pre : String) (nd : Nat) (hg : data_d.isPrefixOf d = false) :
    ∃ (nm : String) (fs1 fs2 : FS),
      copy_file_deduplicated c n d data_d (files_keyed_by_size data_d ⟨[], []⟩)
          pre nd ⟨[], []⟩ = some (data_d ++ [nm], fs1)
      ∧ copy_file_deduplicated c n d data_d (files_keyed_by_size data_d fs1)
          pre nd fs1 = some (data_d ++ [nm], fs2)
      ∧ fs2.store = fs1.store ∧ fs1.store.map (·.content) = [c] := by
  refine ⟨firstVerName n pre nd,
    ⟨[⟨firstVerName n pre nd, c⟩],
     [(d, pyRelpath data_d d.dropLast ++ [firstVerName n pre nd])]⟩,
    ⟨[⟨firstVerName n pre nd, c⟩],
     [(d, pyRelpath data_d d.dropLast ++ [firstVerName n pre nd])]⟩,
    copy_into_empty c n d data_d pre nd hg, ?_, rfl, by simp⟩
  rw [copy_match_single c n d data_d pre nd (firstVerName n pre nd) _ hg]
  simp

/-- Witness for C9 at concrete paths. -/
theorem c9_dedup_idempotent_witness :
    ∃ (nm : String) (fs1 fs2 : FS),
      copy_file_deduplicated [3, 4] "a.exr" ["pub", "a.exr"] ["store"]
          (files_keyed_by_size ["store"] ⟨[], []⟩) "v" 4 ⟨[], []⟩
        = some (["store"] ++ [nm], fs1)
      ∧ copy_file_deduplicated [3, 4] "a.exr" ["pub", "a.exr"] ["store"]
          (files_keyed_by_size ["store"] fs1) "v" 4 fs1
        = some (["store"] ++ [nm], fs2)
      ∧ fs2.store = fs1.store ∧ fs1.store.map (·.content) = [[3, 4]] :=
  c9_dedup_idempotent [3, 4] "a.exr" ["pub", "a.exr"] ["store"] "v" 4 (by decide)
